import Mathlib

/-!
# tepsniff (`main.c`): a shallow embedding

The program loads the directory structure of TIFF files and reports every
directory entry carrying the SecurityClassification tag `0x9212`.

Modelling conventions.

* A file is its list of bytes; a `FILE` stream is that list with a read
  position.  `fseek` and `fread` are state passing functions on streams.
* The program is compiled either for a little-endian or for a big-endian
  machine (`#if __BYTE_ORDER`).  The machine is the parameter `Host`; a value
  the machine reads from memory is decoded in the machine's byte order.
* Unsigned C integers are `Nat` (kept below `2 ^ w`), `int16_t` and `int`
  are `Int`; conversions between them are explicit (`uint16`, `uint32`,
  `int16`).
* `ERR` prints a message and calls `exit (EXIT_FAILURE)`: a function that
  runs into it returns `Except.error` with the stage that failed, and `main`
  turns it into the exit status.
* The linked lists (`ifd_t.next`, `tiff_t.next`) are Lean lists, the head of
  the list being the head pointer.
* `long` is taken to be 64 bits wide so that every `uint32_t` offset is a
  valid non-negative `fseek` offset.
* `read_tiff` contains the only unbounded loop.  It carries a fuel argument
  counting evaluations of the loop test; `none` means that the fuel ran out.
* The heap.  `read_ifd`, `read_tiff` and `main` are the program with memory
  to spare: every `calloc` succeeds, so the three `ERR (... calloc ... ==
  NULL ...)` exits are never taken.  `read_ifd_mem` and `read_tiff_mem` are
  the same functions with these exits, for a heap of a given number of bytes
  from which `calloc` takes and to which nothing is returned (the program
  has no `free`); `read_tiff_mem_refines` relates the two.  `calloc` of zero
  elements returns a non-`NULL` block (glibc).
-/

namespace Tepsniff

/-! ## Machine integers and `<endian.h>` -/

/-- Byte order of the machine the program is compiled for. -/
inductive Host where
  | little
  | big
deriving DecidableEq

/-- One byte of a file. -/
abbrev Byte := Fin 256

/-- Conversion of an `int` to `uint16_t`. -/
def uint16 (v : Int) : Nat := (v % 65536).toNat

/-- Conversion of an `int` to `uint32_t`. -/
def uint32 (v : Int) : Nat := (v % 4294967296).toNat

/-- Reinterpretation of two bytes of memory, given as the unsigned value, as `int16_t`. -/
def int16 (v : Nat) : Int :=
  if v % 65536 < 32768 then ((v % 65536 : Nat) : Int) else ((v % 65536 : Nat) : Int) - 65536

/-- The function `__bswap_16` on a `uint16_t`. -/
def bswap_16 (x : Nat) : Nat := (x % 256) * 256 + (x / 256) % 256

/-- The function `__bswap_32` on a `uint32_t`. -/
def bswap_32 (x : Nat) : Nat :=
  (x % 256) * 16777216 + (x / 256 % 256) * 65536 + (x / 65536 % 256) * 256 + (x / 16777216) % 256

/-- The function `htobe16` of `<endian.h>`, its argument already converted to `uint16_t`. -/
def htobe16 : Host → Nat → Nat
  | Host.little, x => bswap_16 x
  | Host.big, x => x

/-- The function `le16toh` of `<endian.h>`, its argument already converted to `uint16_t`. -/
def le16toh : Host → Nat → Nat
  | Host.little, x => x
  | Host.big, x => bswap_16 x

/-- The function `htobe32` of `<endian.h>`. -/
def htobe32 : Host → Nat → Nat
  | Host.little, x => bswap_32 x
  | Host.big, x => x

/-- The function `le32toh` of `<endian.h>`. -/
def le32toh : Host → Nat → Nat
  | Host.little, x => x
  | Host.big, x => bswap_32 x

/-- The `uint16_t` the machine sees in the two bytes of `buf` at index `off`
(bytes that were never written are the zeroes `calloc` left). -/
def mem16 (host : Host) (buf : List Byte) (off : Nat) : Nat :=
  match host with
  | Host.little => (buf.getD off 0).val + 256 * (buf.getD (off + 1) 0).val
  | Host.big => 256 * (buf.getD off 0).val + (buf.getD (off + 1) 0).val

/-- The `uint32_t` the machine sees in the four bytes of `buf` at index `off`. -/
def mem32 (host : Host) (buf : List Byte) (off : Nat) : Nat :=
  match host with
  | Host.little =>
      (buf.getD off 0).val + 256 * (buf.getD (off + 1) 0).val
        + 65536 * (buf.getD (off + 2) 0).val + 16777216 * (buf.getD (off + 3) 0).val
  | Host.big =>
      16777216 * (buf.getD off 0).val + 65536 * (buf.getD (off + 1) 0).val
        + 256 * (buf.getD (off + 2) 0).val + (buf.getD (off + 3) 0).val

/-! ## Data structures -/

/-- Directory entry, `dir_ent_t`: the raw fields as the machine read them. -/
structure dir_ent_t where
  tag : Nat
  type : Nat
  count : Nat
  offset : Nat
deriving DecidableEq

/-- Header of an image file directory, `ifd_hdr_t`: `int16_t count`. -/
structure ifd_hdr_t where
  count : Int
deriving DecidableEq

/-- Image file directory, `ifd_t` (the `next` pointer is the list order). -/
structure ifd_t where
  hdr : ifd_hdr_t
  entries : List dir_ent_t
  file_offset : Nat
  next_ifd : Nat
deriving DecidableEq

/-- TIFF header, `tiff_hdr_t`; `universe_` is the field `universe`, a reserved word here. -/
structure tiff_hdr_t where
  byte_order : Nat
  universe_ : Nat
  first_ifd : Nat
deriving DecidableEq

/-- A loaded TIFF, `tiff_t` (`fd` is never used, `next` is the list order). -/
structure tiff_t where
  hdr : tiff_hdr_t
  fname : String
  ifds : List ifd_t
deriving DecidableEq

/-- The stage at which `ERR` fired; the argument of `ifd_entries` is the `%u` of the message. -/
inductive Err where
  | tiff_header
  | invalid_magic
  | ifd_header
  | ifd_entries (n_entries : Nat)
  | next_ifd_address
  | seek
  | no_memory_tiff
  | no_memory_ifd
  | no_memory_entries
deriving DecidableEq

/-! ## Endianness macros -/

/-- The macro `ORDER_BE`. -/
def ORDER_BE (h : tiff_t) : Bool := h.hdr.byte_order == 0x4D4D

/-- The macro `NATIVE2`.  The operand `v` is the value after integer promotion
(an `int`): a `uint16_t` field is in `0..65535`, the `int16_t` count is in
`-32768..32767`.  The byte swapping branch converts its operand to
`uint16_t`; the other branch is the promoted operand itself. -/
def NATIVE2 (host : Host) (h : tiff_t) (v : Int) : Int :=
  match host with
  | Host.big => if ORDER_BE h then v else ((le16toh Host.big (uint16 v) : Nat) : Int)
  | Host.little => if ORDER_BE h then ((htobe16 Host.little (uint16 v) : Nat) : Int) else v

/-- The macro `NATIVE4`, on a `uint32_t`. -/
def NATIVE4 (host : Host) (h : tiff_t) (v : Nat) : Nat :=
  match host with
  | Host.big => if ORDER_BE h then v else le32toh Host.big v
  | Host.little => if ORDER_BE h then htobe32 Host.little v else v

/-! ## Streams -/

/-- A stream opened for reading: the bytes of the file and the read position. -/
structure FILE where
  data : List Byte
  pos : Nat
deriving DecidableEq

/-- A freshly opened stream. -/
def fopen (content : List Byte) : FILE := { data := content, pos := 0 }

/-- The call `fseek (fp, offset, SEEK_SET)`: the status and the new stream. -/
def fseek (fp : FILE) (offset : Nat) : Int × FILE := (0, { fp with pos := offset })

/-- The call `fread (buf, size, nmemb, fp)`: the bytes stored in `buf`, the
number of complete items read, and the new stream. -/
def fread (size nmemb : Nat) (fp : FILE) : List Byte × Nat × FILE :=
  let got := (fp.data.drop fp.pos).take (size * nmemb)
  (got, got.length / size, { fp with pos := fp.pos + got.length })

/-! ## Loading -/

/-- The directory entry the machine sees in the 12 bytes of `buf` at index `off`. -/
def dir_ent_at (host : Host) (buf : List Byte) (off : Nat) : dir_ent_t :=
  { tag := mem16 host buf off
    type := mem16 host buf (off + 2)
    count := mem32 host buf (off + 4)
    offset := mem32 host buf (off + 8) }

/-- The function `read_ifd`. -/
def read_ifd (host : Host) (tiff : tiff_t) (fp : FILE) (offset : Nat) : Except Err ifd_t × FILE :=
  let s := fseek fp offset
  if s.1 = -1 then (Except.error Err.seek, s.2) else
  let r := fread 1 2 s.2
  if r.2.1 ≠ 2 then (Except.error Err.ifd_header, r.2.2) else
  let count : Int := int16 (mem16 host r.1 0)
  let n_entries : Nat := uint32 (NATIVE2 host tiff count)
  let e := fread 12 n_entries r.2.2
  if e.2.1 ≠ n_entries then (Except.error (Err.ifd_entries n_entries), e.2.2) else
  let ents := (List.range n_entries).map (fun i => dir_ent_at host e.1 (12 * i))
  let n := fread 1 4 e.2.2
  if n.2.1 ≠ 4 then (Except.error Err.next_ifd_address, n.2.2) else
  (Except.ok { hdr := { count := count }, entries := ents, file_offset := offset,
               next_ifd := mem32 host n.1 0 }, n.2.2)

/-- The loop `while (ifd->next_ifd != 0)` of `read_tiff`, entered with the
IFD read last; the result is the chain from that IFD on.  One unit of fuel
is one evaluation of the loop test. -/
def read_tiff_loop (host : Host) (tiff : tiff_t) :
    Nat → FILE → ifd_t → Option (Except Err (List ifd_t) × FILE)
  | 0, _, _ => none
  | fuel + 1, fp, ifd =>
    if ifd.next_ifd ≠ 0 then
      match read_ifd host tiff fp (NATIVE4 host tiff ifd.next_ifd) with
      | (Except.error e, fp1) => some (Except.error e, fp1)
      | (Except.ok nxt, fp1) =>
        match read_tiff_loop host tiff fuel fp1 nxt with
        | none => none
        | some (Except.error e, fp2) => some (Except.error e, fp2)
        | some (Except.ok rest, fp2) => some (Except.ok (ifd :: rest), fp2)
    else some (Except.ok [ifd], fp)

/-- The function `read_tiff`. -/
def read_tiff (host : Host) (fuel : Nat) (fp : FILE) : Option (Except Err tiff_t × FILE) :=
  let r := fread 1 8 fp
  if r.2.1 ≠ 8 then some (Except.error Err.tiff_header, r.2.2) else
  let tiff : tiff_t :=
    { hdr := { byte_order := mem16 host r.1 0, universe_ := mem16 host r.1 2,
               first_ifd := mem32 host r.1 4 },
      fname := "", ifds := [] }
  if NATIVE2 host tiff (tiff.hdr.universe_ : Int) ≠ 42 then
    some (Except.error Err.invalid_magic, r.2.2) else
  match read_ifd host tiff r.2.2 (NATIVE4 host tiff tiff.hdr.first_ifd) with
  | (Except.error e, fp1) => some (Except.error e, fp1)
  | (Except.ok ifd, fp1) =>
    match read_tiff_loop host tiff fuel fp1 ifd with
    | none => none
    | some (Except.error e, fp2) => some (Except.error e, fp2)
    | some (Except.ok chain, fp2) => some (Except.ok { tiff with ifds := chain }, fp2)

/-- The function `add_tiff`: the new list head. -/
def add_tiff (head : List tiff_t) (tiff : tiff_t) : List tiff_t := tiff :: head

/-- The function `new_tiff`. -/
def new_tiff (host : Host) (fuel : Nat) (fp : FILE) (fname : String) :
    Option (Except Err tiff_t × FILE) :=
  match read_tiff host fuel fp with
  | none => none
  | some (Except.error e, fp1) => some (Except.error e, fp1)
  | some (Except.ok tiff, fp1) => some (Except.ok { tiff with fname := fname }, fp1)

/-! ## Scanning -/

/-- A line on standard output. -/
inductive Line where
  | tag (fname : String) (type : Nat)
  | not_found (fname : String)
deriving DecidableEq

/-- The inner loop of `locate_security_bits` from index `i` on, with `todo`
iterations left: the `type` printed at every match, or `none` when the loop
reads `entries[i]` outside the array. -/
def scan_entries (host : Host) (tiff : tiff_t) (ifd : ifd_t) : Nat → Nat → Option (List Nat)
  | 0, _ => some []
  | todo + 1, i =>
    match ifd.entries.get? i with
    | none => none
    | some ent =>
      match scan_entries host tiff ifd todo (i + 1) with
      | none => none
      | some rest =>
        if NATIVE2 host tiff (ent.tag : Int) = 0x9212 then some (ent.type :: rest) else some rest

/-- The outer loop of `locate_security_bits`.  The bound of the inner loop is
`ifd->hdr.count` converted to `uint32_t` for the comparison with `i`. -/
def scan_ifds (host : Host) (tiff : tiff_t) : List ifd_t → Option (List Nat)
  | [] => some []
  | ifd :: rest =>
    match scan_entries host tiff ifd (uint32 ifd.hdr.count) 0 with
    | none => none
    | some found =>
      match scan_ifds host tiff rest with
      | none => none
      | some more => some (found ++ more)

/-- The function `locate_security_bits`: the lines printed, `none` when an
entries array is read out of bounds.  `sec_flag_count` is a `uint32_t`. -/
def locate_security_bits (host : Host) (tiff : tiff_t) : Option (List Line) :=
  match scan_ifds host tiff tiff.ifds with
  | none => none
  | some found =>
    let sec_flag_count := found.length % 4294967296
    some (found.map (Line.tag tiff.fname)
      ++ (if sec_flag_count = 0 then [Line.not_found tiff.fname] else []))

/-! ## The main program -/

/-- The first loop of `main` over the positional arguments.  An argument is a
file name with the content of the file, `none` when `fopen` fails. -/
def main_load (host : Host) (fuel : Nat) :
    List (String × Option (List Byte)) → List tiff_t → Option (Except Err (List tiff_t))
  | [], tiffs => some (Except.ok tiffs)
  | (_, none) :: rest, tiffs => main_load host fuel rest tiffs
  | (fname, some content) :: rest, tiffs =>
    match new_tiff host fuel (fopen content) fname with
    | none => none
    | some (Except.error e, _) => some (Except.error e)
    | some (Except.ok tiff, _) => main_load host fuel rest (add_tiff tiffs tiff)

/-- The second loop of `main`: the lines printed for the list of TIFFs. -/
def main_scan (host : Host) : List tiff_t → Option (List Line)
  | [] => some []
  | tiff :: rest =>
    match locate_security_bits host tiff with
    | none => none
    | some out =>
      match main_scan host rest with
      | none => none
      | some more => some (out ++ more)

/-- The value of `EXIT_FAILURE`. -/
def EXIT_FAILURE : Nat := 1

/-- The function `main` on positional arguments only: the exit status and
standard output.  `none`: the fuel ran out in a load, or a scan read outside
an entries array. -/
def main (host : Host) (fuel : Nat) (args : List (String × Option (List Byte))) :
    Option (Nat × List Line) :=
  match main_load host fuel args [] with
  | none => none
  | some (Except.error _) => some (EXIT_FAILURE, [])
  | some (Except.ok tiffs) =>
    match main_scan host tiffs with
    | none => none
    | some out => some (0, out)

/-! ## Views of a file used to state the results -/

/-- Binary format: the big-endian reading of the two bytes of `data` at `off`. -/
def be16 (data : List Byte) (off : Nat) : Nat :=
  256 * (data.getD off 0).val + (data.getD (off + 1) 0).val

/-- Binary format: the little-endian reading of the two bytes of `data` at `off`. -/
def le16 (data : List Byte) (off : Nat) : Nat :=
  (data.getD off 0).val + 256 * (data.getD (off + 1) 0).val

/-- Binary format: the big-endian reading of the four bytes of `data` at `off`. -/
def be32 (data : List Byte) (off : Nat) : Nat :=
  16777216 * (data.getD off 0).val + 65536 * (data.getD (off + 1) 0).val
    + 256 * (data.getD (off + 2) 0).val + (data.getD (off + 3) 0).val

/-- Binary format: the little-endian reading of the four bytes of `data` at `off`. -/
def le32 (data : List Byte) (off : Nat) : Nat :=
  (data.getD off 0).val + 256 * (data.getD (off + 1) 0).val
    + 65536 * (data.getD (off + 2) 0).val + 16777216 * (data.getD (off + 3) 0).val

/-- The `tiff_t` that `read_tiff` has built once the header is read from position `pos`. -/
def header_at (host : Host) (data : List Byte) (pos : Nat) : tiff_t :=
  { hdr := { byte_order := mem16 host data pos, universe_ := mem16 host data (pos + 2),
             first_ifd := mem32 host data (pos + 4) },
    fname := "", ifds := [] }

/-- The value `n_entries` that `read_ifd` computes from the count field at `off`. -/
def n_entries_at (host : Host) (tiff : tiff_t) (data : List Byte) (off : Nat) : Nat :=
  uint32 (NATIVE2 host tiff (int16 (mem16 host data off)))

/-- The IFD that `read_ifd` assembles at `off` when all its reads succeed. -/
def ifd_at (host : Host) (tiff : tiff_t) (data : List Byte) (off : Nat) : ifd_t :=
  { hdr := { count := int16 (mem16 host data off) }
    entries := (List.range (n_entries_at host tiff data off)).map
      (fun i => dir_ent_at host data (off + 2 + 12 * i))
    file_offset := off
    next_ifd := mem32 host data (off + 2 + 12 * n_entries_at host tiff data off) }

/-- Binary format: the 16-bit field at `off` of a file whose fields are big-endian (`big`) or little-endian. -/
def field16 (big : Bool) (data : List Byte) (off : Nat) : Nat :=
  if big then be16 data off else le16 data off

/-- Binary format: the 32-bit field at `off` of a file whose fields are big-endian (`big`) or little-endian. -/
def field32 (big : Bool) (data : List Byte) (off : Nat) : Nat :=
  if big then be32 data off else le32 data off

/-- Binary format: the byte order marker at `pos` is `MM` (0x4D4D), the file declares big-endian fields. -/
def declares_big (data : List Byte) (pos : Nat) : Bool :=
  (data.getD pos 0).val == 0x4D && (data.getD (pos + 1) 0).val == 0x4D

/-- The low byte of a number. -/
def byte (v : Nat) : Byte := ⟨v % 256, Nat.mod_lt v (by decide)⟩

/-- Binary format: a 16-bit field written big-endian (`big`) or little-endian. -/
def put16 (big : Bool) (v : Nat) : List Byte :=
  if big then [byte (v / 256), byte v] else [byte v, byte (v / 256)]

/-- Binary format: a 32-bit field written big-endian (`big`) or little-endian. -/
def put32 (big : Bool) (v : Nat) : List Byte :=
  if big then [byte (v / 16777216), byte (v / 65536), byte (v / 256), byte v]
  else [byte v, byte (v / 256), byte (v / 65536), byte (v / 16777216)]

/-- Binary format: a 12-byte directory entry, from its (tag, type, count, offset) quadruple. -/
def put_entry (big : Bool) (q : dir_ent_t) : List Byte :=
  put16 big q.tag ++ put16 big q.type ++ put32 big q.count ++ put32 big q.offset

/-- Binary format: directory entries written contiguously. -/
def put_entries (big : Bool) : List dir_ent_t → List Byte
  | [] => []
  | q :: qs => put_entry big q ++ put_entries big qs

/-- Binary format: an IFD, the 2-byte entry count, the entries and the 4-byte next offset. -/
def put_ifd (big : Bool) (quads : List dir_ent_t) (next : Nat) : List Byte :=
  put16 big quads.length ++ put_entries big quads ++ put32 big next

/-- Binary format: IFDs written one after the other from offset `off` on, each
pointing to the one that follows and the last one to 0. -/
def put_chain (big : Bool) : Nat → List (List dir_ent_t) → List Byte
  | _, [] => []
  | _, [quads] => put_ifd big quads 0
  | off, quads :: more :: rest =>
    put_ifd big quads (off + 2 + 12 * quads.length + 4)
      ++ put_chain big (off + 2 + 12 * quads.length + 4) (more :: rest)

/-- Binary format: a whole file, the 8-byte header (marker `MM` or `II`, 42,
first IFD at offset 8) and the chain of IFDs. -/
def put_tiff (big : Bool) (ifds : List (List dir_ent_t)) : List Byte :=
  (if big then [0x4D, 0x4D] else [0x49, 0x49]) ++ put16 big 42 ++ put32 big 8 ++ put_chain big 8 ifds

/-- The byte order of a file is the byte order of the machine. -/
def host_order (host : Host) (big : Bool) : Bool :=
  match host with
  | Host.little => !big
  | Host.big => big

/-- Binary format: the file holds a whole IFD at offset `o` (count, entries
and next offset lie within the file), with at most 32767 entries when the
byte order of the file is that of the machine. -/
def ifd_written (host : Host) (big : Bool) (data : List Byte) (o : Nat) : Prop :=
  o + 2 + 12 * field16 big data o + 4 ≤ data.length
    ∧ (field16 big data o ≤ 32767 ∨ host_order host big = false)

/-- Binary format: the file holds a chain of IFDs at the offsets listed, each
pointing to the next one and the last one to 0. -/
def chain_written (host : Host) (big : Bool) (data : List Byte) : List Nat → Prop
  | [] => False
  | [o] => ifd_written host big data o ∧ field32 big data (o + 2 + 12 * field16 big data o) = 0
  | o :: o2 :: rest =>
    ifd_written host big data o
      ∧ field32 big data (o + 2 + 12 * field16 big data o) = o2 ∧ o2 ≠ 0
      ∧ chain_written host big data (o2 :: rest)

/-! ## Loading with a bounded heap -/

/-- The value of `sizeof (ifd_t)` (LP64: count and padding 8, entries 8,
file_offset 4, next_ifd 4, next 8). -/
def sizeof_ifd_t : Nat := 32

/-- The value of `sizeof (tiff_t)` (LP64: hdr 8, fname 8, fd and padding 8, ifds 8, next 8). -/
def sizeof_tiff_t : Nat := 40

/-- The value of `sizeof (dir_ent_t)`. -/
def sizeof_dir_ent_t : Nat := 12

/-- The call `calloc (nmemb, size)` with `avail` bytes of heap left: the bytes
left after it, `none` when it returns `NULL`.  The program frees nothing. -/
def calloc (nmemb size avail : Nat) : Option Nat :=
  if nmemb * size ≤ avail then some (avail - nmemb * size) else none

/-- The allocation failures among the errors. -/
def out_of_memory : Err → Bool
  | Err.no_memory_tiff => true
  | Err.no_memory_ifd => true
  | Err.no_memory_entries => true
  | _ => false

/-- The function `read_ifd` with its two `calloc` checks, on a heap with
`avail` bytes left: the result, the stream and the bytes left. -/
def read_ifd_mem (host : Host) (tiff : tiff_t) (avail : Nat) (fp : FILE) (offset : Nat) :
    Except Err ifd_t × FILE × Nat :=
  match calloc 1 sizeof_ifd_t avail with
  | none => (Except.error Err.no_memory_ifd, fp, avail)
  | some a1 =>
    let s := fseek fp offset
    if s.1 = -1 then (Except.error Err.seek, s.2, a1) else
    let r := fread 1 2 s.2
    if r.2.1 ≠ 2 then (Except.error Err.ifd_header, r.2.2, a1) else
    let count : Int := int16 (mem16 host r.1 0)
    let n_entries : Nat := uint32 (NATIVE2 host tiff count)
    match calloc n_entries sizeof_dir_ent_t a1 with
    | none => (Except.error Err.no_memory_entries, r.2.2, a1)
    | some a2 =>
      let e := fread 12 n_entries r.2.2
      if e.2.1 ≠ n_entries then (Except.error (Err.ifd_entries n_entries), e.2.2, a2) else
      let ents := (List.range n_entries).map (fun i => dir_ent_at host e.1 (12 * i))
      let n := fread 1 4 e.2.2
      if n.2.1 ≠ 4 then (Except.error Err.next_ifd_address, n.2.2, a2) else
      (Except.ok { hdr := { count := count }, entries := ents, file_offset := offset,
                   next_ifd := mem32 host n.1 0 }, n.2.2, a2)

/-- The loop of `read_tiff` on a heap with `avail` bytes left. -/
def read_tiff_loop_mem (host : Host) (tiff : tiff_t) :
    Nat → Nat → FILE → ifd_t → Option (Except Err (List ifd_t) × FILE × Nat)
  | 0, _, _, _ => none
  | fuel + 1, avail, fp, ifd =>
    if ifd.next_ifd ≠ 0 then
      match read_ifd_mem host tiff avail fp (NATIVE4 host tiff ifd.next_ifd) with
      | (Except.error e, fp1, a1) => some (Except.error e, fp1, a1)
      | (Except.ok nxt, fp1, a1) =>
        match read_tiff_loop_mem host tiff fuel a1 fp1 nxt with
        | none => none
        | some (Except.error e, fp2, a2) => some (Except.error e, fp2, a2)
        | some (Except.ok rest, fp2, a2) => some (Except.ok (ifd :: rest), fp2, a2)
    else some (Except.ok [ifd], fp, avail)

/-- The function `read_tiff` with its `calloc` check and those of `read_ifd`,
on a heap with `avail` bytes left. -/
def read_tiff_mem (host : Host) (avail fuel : Nat) (fp : FILE) :
    Option (Except Err tiff_t × FILE × Nat) :=
  match calloc 1 sizeof_tiff_t avail with
  | none => some (Except.error Err.no_memory_tiff, fp, avail)
  | some a0 =>
    let r := fread 1 8 fp
    if r.2.1 ≠ 8 then some (Except.error Err.tiff_header, r.2.2, a0) else
    let tiff : tiff_t :=
      { hdr := { byte_order := mem16 host r.1 0, universe_ := mem16 host r.1 2,
                 first_ifd := mem32 host r.1 4 },
        fname := "", ifds := [] }
    if NATIVE2 host tiff (tiff.hdr.universe_ : Int) ≠ 42 then
      some (Except.error Err.invalid_magic, r.2.2, a0) else
    match read_ifd_mem host tiff a0 r.2.2 (NATIVE4 host tiff tiff.hdr.first_ifd) with
    | (Except.error e, fp1, a1) => some (Except.error e, fp1, a1)
    | (Except.ok ifd, fp1, a1) =>
      match read_tiff_loop_mem host tiff fuel a1 fp1 ifd with
      | none => none
      | some (Except.error e, fp2, a2) => some (Except.error e, fp2, a2)
      | some (Except.ok chain, fp2, a2) => some (Except.ok { tiff with ifds := chain }, fp2, a2)

/-- A result without the bytes of heap left. -/
def forget_heap {α : Type} (r : Except Err α × FILE × Nat) : Except Err α × FILE := (r.1, r.2.1)

/-! ## The walk along the chain -/

/-- One turn of the loop of `read_tiff` seen from the file: from the IFD at
offset `o` the loader goes on to the offset returned, and stops (`none`)
when the IFD at `o` cannot be read or its `next_ifd` is 0. -/
def loop_step (host : Host) (tiff : tiff_t) (data : List Byte) (o : Nat) : Option Nat :=
  if data.length < o + 2 + 12 * n_entries_at host tiff data o + 4 then none
  else if (ifd_at host tiff data o).next_ifd = 0 then none
  else some (NATIVE4 host tiff (ifd_at host tiff data o).next_ifd)

/-- The chain of next offsets that starts at `o` reaches 0 or an unreadable
IFD within `k` IFDs. -/
def chain_ends (host : Host) (tiff : tiff_t) (data : List Byte) : Nat → Nat → Bool
  | 0, _ => false
  | k + 1, o =>
    match loop_step host tiff data o with
    | none => true
    | some o2 => chain_ends host tiff data k o2

/-! ## Sample files -/

/-- A little-endian file: one IFD at offset 8 with the single entry (0x9212, 3, 1, 0). -/
def sample_le : List Byte :=
  [0x49, 0x49, 0x2A, 0, 8, 0, 0, 0, 1, 0, 0x12, 0x92, 3, 0, 1, 0, 0, 0, 0, 0, 0, 0, 0, 0, 0, 0]

/-- The same content written big-endian. -/
def sample_be : List Byte :=
  [0x4D, 0x4D, 0, 0x2A, 0, 0, 0, 8, 0, 1, 0x92, 0x12, 0, 3, 0, 0, 0, 1, 0, 0, 0, 0, 0, 0, 0, 0]

/-- What a machine whose byte order is the file's loads from `sample_le`, resp. `sample_be`. -/
def sample_tiff (byte_order : Nat) : tiff_t :=
  { hdr := { byte_order := byte_order, universe_ := 42, first_ifd := 8 }, fname := "",
    ifds := [{ hdr := { count := 1 }, entries := [{ tag := 0x9212, type := 3, count := 1, offset := 0 }],
               file_offset := 8, next_ifd := 0 }] }

/-- A little-endian file whose only IFD, at offset 8, has no entries and
names offset 8 as the next IFD. -/
def sample_cyclic : List Byte :=
  [0x49, 0x49, 0x2A, 0, 8, 0, 0, 0, 0, 0, 8, 0, 0, 0]

/-- A little-endian file with one IFD at offset 8: the count bytes `00 80`,
`12 * n` zero bytes of entries and the next offset 7. -/
def sample_long (n : Nat) : List Byte :=
  ([0x49, 0x49, 0x2A, 0, 8, 0, 0, 0, 0x00, 0x80] ++ List.replicate (12 * n) 0) ++ [7, 0, 0, 0]

/-- The directory entry with all fields zero. -/
def zero_ent : dir_ent_t := { tag := 0, type := 0, count := 0, offset := 0 }

/-- A SecurityClassification entry: tag 0x9212, type 3, count 1, offset 0. -/
def sec_ent : dir_ent_t := { tag := 0x9212, type := 3, count := 1, offset := 0 }

/-- The entries of an IFD with 256 entries, the second of which is `sec_ent`. -/
def content_256 : List dir_ent_t := [zero_ent, sec_ent] ++ List.replicate 254 zero_ent

/-- The entries of an IFD with 257 entries, the first of which is `sec_ent`. -/
def content_257 : List dir_ent_t := [sec_ent] ++ List.replicate 256 zero_ent

/-- The entries of an IFD with 32768 entries. -/
def content_32768 : List dir_ent_t := [] ++ List.replicate 32768 zero_ent

/-! ## Results -/

/-! ### Bytes in memory -/

theorem getD_take_drop (data : List Byte) (o k i : Nat) (d : Byte) (h : i < k) :
    ((data.drop o).take k).getD i d = data.getD (o + i) d := by
  simp [List.getD_eq_getElem?_getD, List.getElem?_take, h]

theorem mem16_take_drop (host : Host) (data : List Byte) (o k i : Nat) (h : i + 2 ≤ k) :
    mem16 host ((data.drop o).take k) i = mem16 host data (o + i) := by
  unfold mem16
  rw [getD_take_drop _ _ _ _ _ (by omega : i < k), getD_take_drop _ _ _ _ _ (by omega : i + 1 < k)]
  rfl

theorem mem32_take_drop (host : Host) (data : List Byte) (o k i : Nat) (h : i + 4 ≤ k) :
    mem32 host ((data.drop o).take k) i = mem32 host data (o + i) := by
  unfold mem32
  rw [getD_take_drop _ _ _ _ _ (by omega : i < k), getD_take_drop _ _ _ _ _ (by omega : i + 1 < k),
    getD_take_drop _ _ _ _ _ (by omega : i + 2 < k), getD_take_drop _ _ _ _ _ (by omega : i + 3 < k)]
  rfl

theorem bswap_16_mem16 (data : List Byte) (off : Nat) :
    bswap_16 (mem16 Host.little data off) = mem16 Host.big data off
    ∧ bswap_16 (mem16 Host.big data off) = mem16 Host.little data off := by
  have h0 := (data.getD off 0).isLt
  have h1 := (data.getD (off + 1) 0).isLt
  simp only [bswap_16, mem16]
  omega

theorem bswap_32_mem32 (data : List Byte) (off : Nat) :
    bswap_32 (mem32 Host.little data off) = mem32 Host.big data off
    ∧ bswap_32 (mem32 Host.big data off) = mem32 Host.little data off := by
  have h0 := (data.getD off 0).isLt
  have h1 := (data.getD (off + 1) 0).isLt
  have h2 := (data.getD (off + 2) 0).isLt
  have h3 := (data.getD (off + 3) 0).isLt
  simp only [bswap_32, mem32]
  omega

theorem mem16_lt (host : Host) (data : List Byte) (off : Nat) : mem16 host data off < 65536 := by
  have h0 := (data.getD off 0).isLt
  have h1 := (data.getD (off + 1) 0).isLt
  cases host <;> simp only [mem16] <;> omega

theorem uint16_cast (n : Nat) (h : n < 65536) : uint16 (n : Int) = n := by
  unfold uint16; omega

/-! ### What `read_ifd` and the header part of `read_tiff` compute -/

theorem length_take_drop (data : List Byte) (o k : Nat) :
    ((data.drop o).take k).length = min k (data.length - o) := by
  simp

theorem read_ifd_ok (host : Host) (tiff : tiff_t) (fp : FILE) (off : Nat)
    (h : off + 2 + 12 * n_entries_at host tiff fp.data off + 4 ≤ fp.data.length) :
    read_ifd host tiff fp off
      = (Except.ok (ifd_at host tiff fp.data off),
         { data := fp.data, pos := off + 2 + 12 * n_entries_at host tiff fp.data off + 4 }) := by
  have hc : mem16 host ((fp.data.drop off).take 2) 0 = mem16 host fp.data off := by
    rw [mem16_take_drop _ _ _ _ _ (by omega)]; rfl
  have hl2 : ((fp.data.drop off).take 2).length = 2 := by
    rw [length_take_drop]; omega
  unfold read_ifd
  simp only [fseek, fread, Nat.one_mul, hl2, hc]
  simp only [show (0 : Int) = -1 ↔ False by decide, Nat.div_one, ne_eq, not_true_eq_false, if_false]
  have hn : uint32 (NATIVE2 host tiff (int16 (mem16 host fp.data off)))
      = n_entries_at host tiff fp.data off := rfl
  rw [hn]
  generalize hN : n_entries_at host tiff fp.data off = n at h ⊢
  have hl12 : ((fp.data.drop (off + 2)).take (12 * n)).length = 12 * n := by
    rw [length_take_drop]; omega
  simp only [hl12]
  have hd : 12 * n / 12 = n := by omega
  have hl4 : ((fp.data.drop (off + 2 + 12 * n)).take 4).length = 4 := by
    rw [length_take_drop]; omega
  simp only [hd, hl4, ne_eq, not_true_eq_false, if_false]
  have he : (List.range n).map (fun i => dir_ent_at host ((fp.data.drop (off + 2)).take (12 * n)) (12 * i))
      = (List.range n).map (fun i => dir_ent_at host fp.data (off + 2 + 12 * i)) := by
    apply List.map_congr_left
    intro i hi
    have hi2 : i < n := List.mem_range.mp hi
    simp only [dir_ent_at]
    rw [mem16_take_drop _ _ _ _ _ (by omega), mem16_take_drop _ _ _ _ _ (by omega),
      mem32_take_drop _ _ _ _ _ (by omega), mem32_take_drop _ _ _ _ _ (by omega)]
    simp only [Nat.add_assoc]
  have hx : mem32 host ((fp.data.drop (off + 2 + 12 * n)).take 4) 0 = mem32 host fp.data (off + 2 + 12 * n) := by
    rw [mem32_take_drop _ _ _ _ _ (by omega)]; rfl
  simp only [he, hx, ifd_at, hN]

theorem read_ifd_fst (host : Host) (tiff : tiff_t) (fp : FILE) (off : Nat) :
    (read_ifd host tiff fp off).1 =
      if fp.data.length < off + 2 then Except.error Err.ifd_header
      else if fp.data.length < off + 2 + 12 * n_entries_at host tiff fp.data off then
        Except.error (Err.ifd_entries (n_entries_at host tiff fp.data off))
      else if fp.data.length < off + 2 + 12 * n_entries_at host tiff fp.data off + 4 then
        Except.error Err.next_ifd_address
      else Except.ok (ifd_at host tiff fp.data off) := by
  by_cases h4 : fp.data.length < off + 2 + 12 * n_entries_at host tiff fp.data off + 4
  · by_cases h2 : fp.data.length < off + 2
    · rw [if_pos h2]
      unfold read_ifd
      simp only [fseek, fread, Nat.one_mul, show (0 : Int) = -1 ↔ False by decide, if_false,
        Nat.div_one, length_take_drop]
      have hm : ¬ min 2 (fp.data.length - off) = 2 := by omega
      simp only [hm, ne_eq, not_false_eq_true, if_true]
    · rw [if_neg h2]
      unfold read_ifd
      simp only [fseek, fread, Nat.one_mul, show (0 : Int) = -1 ↔ False by decide, if_false,
        Nat.div_one, length_take_drop]
      have hm : min 2 (fp.data.length - off) = 2 := by omega
      have hc : mem16 host ((fp.data.drop off).take 2) 0 = mem16 host fp.data off := by
        rw [mem16_take_drop _ _ _ _ _ (by omega)]; rfl
      have hn : uint32 (NATIVE2 host tiff (int16 (mem16 host fp.data off)))
        = n_entries_at host tiff fp.data off := rfl
      simp only [hm, hc, hn, ne_eq, not_true_eq_false, if_false]
      generalize n_entries_at host tiff fp.data off = n at h4 ⊢
      by_cases h12 : fp.data.length < off + 2 + 12 * n
      · have hd : ¬ min (12 * n) (fp.data.length - (off + 2)) / 12 = n := by omega
        simp only [hd, not_false_eq_true, if_true, h12]
      · have hm12 : min (12 * n) (fp.data.length - (off + 2)) = 12 * n := by omega
        have hd : 12 * n / 12 = n := by omega
        have hm4 : ¬ min 4 (fp.data.length - (off + 2 + 12 * n)) = 4 := by omega
        simp only [hm12, hd, hm4, not_true_eq_false, if_false, not_false_eq_true, if_true, h12, h4]
  · rw [read_ifd_ok host tiff fp off (by omega)]
    have h2 : ¬ fp.data.length < off + 2 := by omega
    have h12 : ¬ fp.data.length < off + 2 + 12 * n_entries_at host tiff fp.data off := by omega
    simp only [h2, h12, h4, if_false]

/-- The stream position does not matter to `read_ifd`, which seeks first. -/
theorem read_ifd_pos (host : Host) (tiff : tiff_t) (fp : FILE) (off p : Nat) :
    read_ifd host tiff { data := fp.data, pos := p } off = read_ifd host tiff fp off := rfl

theorem read_tiff_header (host : Host) (fuel : Nat) (fp : FILE)
    (h : fp.pos + 8 ≤ fp.data.length) :
    read_tiff host fuel fp =
      if NATIVE2 host (header_at host fp.data fp.pos) ((header_at host fp.data fp.pos).hdr.universe_ : Int) ≠ 42 then
        some (Except.error Err.invalid_magic, { data := fp.data, pos := fp.pos + 8 })
      else
        match read_ifd host (header_at host fp.data fp.pos) fp
            (NATIVE4 host (header_at host fp.data fp.pos) (header_at host fp.data fp.pos).hdr.first_ifd) with
        | (Except.error e, fp1) => some (Except.error e, fp1)
        | (Except.ok ifd, fp1) =>
          match read_tiff_loop host (header_at host fp.data fp.pos) fuel fp1 ifd with
          | none => none
          | some (Except.error e, fp2) => some (Except.error e, fp2)
          | some (Except.ok chain, fp2) =>
            some (Except.ok { header_at host fp.data fp.pos with ifds := chain }, fp2) := by
  have hl : ((fp.data.drop fp.pos).take 8).length = 8 := by rw [length_take_drop]; omega
  have h0 : mem16 host ((fp.data.drop fp.pos).take 8) 0 = mem16 host fp.data fp.pos := by
    rw [mem16_take_drop _ _ _ _ _ (by omega)]; rfl
  have h2 : mem16 host ((fp.data.drop fp.pos).take 8) 2 = mem16 host fp.data (fp.pos + 2) := by
    rw [mem16_take_drop _ _ _ _ _ (by omega)]
  have h4 : mem32 host ((fp.data.drop fp.pos).take 8) 4 = mem32 host fp.data (fp.pos + 4) := by
    rw [mem32_take_drop _ _ _ _ _ (by omega)]
  unfold read_tiff
  simp only [fread, Nat.one_mul, hl, h0, h2, h4, Nat.div_one, ne_eq, not_true_eq_false, if_false]
  rfl

theorem read_tiff_short (host : Host) (fuel : Nat) (fp : FILE)
    (h : fp.data.length < fp.pos + 8) :
    ∃ fp1, read_tiff host fuel fp = some (Except.error Err.tiff_header, fp1) := by
  have hl : ¬ ((fp.data.drop fp.pos).take 8).length = 8 := by rw [length_take_drop]; omega
  unfold read_tiff
  simp only [fread, Nat.one_mul, Nat.div_one, ne_eq, hl, not_false_eq_true, if_true]
  exact ⟨_, rfl⟩

/-! ### The normalizers -/

theorem mem32_lt (host : Host) (data : List Byte) (off : Nat) : mem32 host data off < 4294967296 := by
  have h0 := (data.getD off 0).isLt
  have h1 := (data.getD (off + 1) 0).isLt
  have h2 := (data.getD (off + 2) 0).isLt
  have h3 := (data.getD (off + 3) 0).isLt
  cases host <;> simp only [mem32] <;> omega

theorem NATIVE2_mem16 (host : Host) (h : tiff_t) (data : List Byte) (off : Nat) :
    NATIVE2 host h ((mem16 host data off : Nat) : Int)
      = ((if ORDER_BE h then be16 data off else le16 data off : Nat) : Int) := by
  have hs := bswap_16_mem16 data off
  cases host <;> cases hb : ORDER_BE h <;>
    simp only [NATIVE2, hb, if_true, if_false, Bool.false_eq_true, htobe16, le16toh,
      uint16_cast _ (mem16_lt _ data off), hs.1, hs.2] <;> rfl

theorem NATIVE4_mem32 (host : Host) (h : tiff_t) (data : List Byte) (off : Nat) :
    NATIVE4 host h (mem32 host data off)
      = (if ORDER_BE h then be32 data off else le32 data off) := by
  have hs := bswap_32_mem32 data off
  cases host <;> cases hb : ORDER_BE h <;>
    simp only [NATIVE4, hb, if_true, if_false, Bool.false_eq_true, htobe32, le32toh, hs.1, hs.2] <;> rfl

theorem ORDER_BE_iff (h : tiff_t) : ORDER_BE h = true ↔ h.hdr.byte_order = 0x4D4D := by
  simp [ORDER_BE]

/-- C10. `NATIVE2` and `NATIVE4` are total functions.  Applied to the raw value
the machine reads from two (four) bytes of the file they give the big-endian
reading of these bytes when the header `byte_order` is 0x4D4D and the
little-endian reading otherwise, and the result on a little-endian machine
is the result on a big-endian machine. -/
theorem native_normalizers_decode (host : Host) (h : tiff_t) (data : List Byte) (off : Nat) :
    NATIVE2 host h ((mem16 host data off : Nat) : Int)
        = ((if h.hdr.byte_order = 0x4D4D then be16 data off else le16 data off : Nat) : Int)
    ∧ NATIVE4 host h (mem32 host data off)
        = (if h.hdr.byte_order = 0x4D4D then be32 data off else le32 data off)
    ∧ NATIVE2 Host.little h ((mem16 Host.little data off : Nat) : Int)
        = NATIVE2 Host.big h ((mem16 Host.big data off : Nat) : Int)
    ∧ NATIVE4 Host.little h (mem32 Host.little data off)
        = NATIVE4 Host.big h (mem32 Host.big data off) := by
  refine ⟨?_, ?_, ?_, ?_⟩
  · rw [NATIVE2_mem16]; simp only [ORDER_BE_iff]
  · rw [NATIVE4_mem32]; simp only [ORDER_BE_iff]
  · rw [NATIVE2_mem16, NATIVE2_mem16]
  · rw [NATIVE4_mem32, NATIVE4_mem32]

/-! ### The magic number -/

theorem ORDER_BE_header_at (host : Host) (data : List Byte) (pos : Nat) :
    ORDER_BE (header_at host data pos) = declares_big data pos := by
  have h0 := (data.getD pos 0).isLt
  have h1 := (data.getD (pos + 1) 0).isLt
  rw [Bool.eq_iff_iff]
  cases host <;>
    simp only [ORDER_BE, header_at, mem16, declares_big, beq_iff_eq, Bool.and_eq_true] <;> omega

theorem NATIVE2_congr (host : Host) (h h1 : tiff_t) (e : ORDER_BE h = ORDER_BE h1) (v : Int) :
    NATIVE2 host h v = NATIVE2 host h1 v := by
  cases host <;> simp only [NATIVE2, e]

theorem NATIVE4_congr (host : Host) (h h1 : tiff_t) (e : ORDER_BE h = ORDER_BE h1) (v : Nat) :
    NATIVE4 host h v = NATIVE4 host h1 v := by
  cases host <;> simp only [NATIVE4, e]

theorem universe_header_at (host : Host) (data : List Byte) (pos : Nat) :
    NATIVE2 host (header_at host data pos) ((header_at host data pos).hdr.universe_ : Int)
      = ((field16 (declares_big data pos) data (pos + 2) : Nat) : Int) := by
  have h := NATIVE2_mem16 host (header_at host data pos) data (pos + 2)
  rw [ORDER_BE_header_at] at h
  exact h

/-- C3. When the 8 header bytes are there and the `universe` field, read in the
byte order the header declares, is not 42, `read_tiff` fails with "Invalid
TIFF magic number" whatever the fuel, the stream standing right behind the
header (no IFD was sought or read); and every `tiff_t` that `read_tiff`
returns has a normalized `universe` of 42. -/
theorem read_tiff_magic_gate (host : Host) (fuel : Nat) (fp : FILE) :
    (fp.pos + 8 ≤ fp.data.length →
      field16 (declares_big fp.data fp.pos) fp.data (fp.pos + 2) ≠ 42 →
        read_tiff host fuel fp
          = some (Except.error Err.invalid_magic, { data := fp.data, pos := fp.pos + 8 }))
    ∧ (∀ t fp1, read_tiff host fuel fp = some (Except.ok t, fp1) →
        NATIVE2 host t (t.hdr.universe_ : Int) = 42
        ∧ field16 (declares_big fp.data fp.pos) fp.data (fp.pos + 2) = 42) := by
  constructor
  · intro h8 hm
    rw [read_tiff_header host fuel fp h8, universe_header_at, if_pos]
    intro hc
    exact hm (by exact_mod_cast hc)
  · intro t fp1 hr
    by_cases h8 : fp.pos + 8 ≤ fp.data.length
    · rw [read_tiff_header host fuel fp h8] at hr
      by_cases hm : NATIVE2 host (header_at host fp.data fp.pos)
          ((header_at host fp.data fp.pos).hdr.universe_ : Int) = 42
      · rw [if_neg (by simpa using hm)] at hr
        have hf : field16 (declares_big fp.data fp.pos) fp.data (fp.pos + 2) = 42 := by
          rw [universe_header_at] at hm; exact_mod_cast hm
        refine ⟨?_, hf⟩
        rcases hi : read_ifd host (header_at host fp.data fp.pos) fp
            (NATIVE4 host (header_at host fp.data fp.pos) (header_at host fp.data fp.pos).hdr.first_ifd)
          with ⟨r, fp2⟩
        rw [hi] at hr
        cases r with
        | error e => simp at hr
        | ok ifd =>
          simp only at hr
          rcases hl : read_tiff_loop host (header_at host fp.data fp.pos) fuel fp2 ifd with _ | ⟨r2, fp3⟩
          · rw [hl] at hr; simp at hr
          · rw [hl] at hr
            cases r2 with
            | error e => simp at hr
            | ok chain =>
              simp only [Option.some.injEq, Prod.mk.injEq, Except.ok.injEq] at hr
              rw [← hr.1]
              exact hm
      · rw [if_pos (by simpa using hm)] at hr
        simp at hr
    · obtain ⟨fp2, h⟩ := read_tiff_short host fuel fp (by omega)
      rw [h] at hr
      simp at hr

/-- C3, instances: a little-endian header with universe 43 on a little-endian
machine is rejected with the stream at position 8, and the `tiff_t` loaded
from `sample_le` has the normalized universe 42. -/
theorem read_tiff_magic_gate_witness :
    read_tiff Host.little 0 (fopen [0x49, 0x49, 43, 0, 8, 0, 0, 0, 0, 0, 0, 0, 0, 0])
        = some (Except.error Err.invalid_magic,
            { data := [0x49, 0x49, 43, 0, 8, 0, 0, 0, 0, 0, 0, 0, 0, 0], pos := 0 + 8 })
    ∧ NATIVE2 Host.little (sample_tiff 0x4949) ((sample_tiff 0x4949).hdr.universe_ : Int) = 42
    ∧ field16 (declares_big sample_le 0) sample_le (0 + 2) = 42 :=
  ⟨(read_tiff_magic_gate Host.little 0 (fopen [0x49, 0x49, 43, 0, 8, 0, 0, 0, 0, 0, 0, 0, 0, 0])).1
      (by decide) (by decide),
    (read_tiff_magic_gate Host.little 1 (fopen sample_le)).2 (sample_tiff 0x4949)
      { data := sample_le, pos := 26 } rfl⟩

/-! ### Truncated files -/

theorem getD_take_lt (data : List Byte) (L i : Nat) (d : Byte) (h : i < L) :
    (data.take L).getD i d = data.getD i d := by
  simp [List.getD_eq_getElem?_getD, List.getElem?_take, h]

theorem mem16_take (host : Host) (data : List Byte) (L off : Nat) (h : off + 2 ≤ L) :
    mem16 host (data.take L) off = mem16 host data off := by
  unfold mem16
  rw [getD_take_lt _ _ _ _ (by omega : off < L), getD_take_lt _ _ _ _ (by omega : off + 1 < L)]

theorem mem32_take (host : Host) (data : List Byte) (L off : Nat) (h : off + 4 ≤ L) :
    mem32 host (data.take L) off = mem32 host data off := by
  unfold mem32
  rw [getD_take_lt _ _ _ _ (by omega : off < L), getD_take_lt _ _ _ _ (by omega : off + 1 < L),
    getD_take_lt _ _ _ _ (by omega : off + 2 < L), getD_take_lt _ _ _ _ (by omega : off + 3 < L)]

theorem n_entries_at_take (host : Host) (tiff : tiff_t) (data : List Byte) (L off : Nat)
    (h : off + 2 ≤ L) :
    n_entries_at host tiff (data.take L) off = n_entries_at host tiff data off := by
  unfold n_entries_at
  rw [mem16_take _ _ _ _ h]

theorem ifd_at_take (host : Host) (tiff : tiff_t) (data : List Byte) (L off : Nat)
    (h : off + 2 + 12 * n_entries_at host tiff data off + 4 ≤ L) :
    ifd_at host tiff (data.take L) off = ifd_at host tiff data off := by
  unfold ifd_at
  rw [n_entries_at_take _ _ _ _ _ (by omega), mem16_take _ _ _ _ (by omega),
    mem32_take _ _ _ _ (by omega)]
  congr 1
  apply List.map_congr_left
  intro i hi
  have hi2 : i < n_entries_at host tiff data off := List.mem_range.mp hi
  simp only [dir_ent_at]
  rw [mem16_take _ _ _ _ (by omega), mem16_take _ _ _ _ (by omega),
    mem32_take _ _ _ _ (by omega), mem32_take _ _ _ _ (by omega)]

theorem ifd_at_entries_length (host : Host) (tiff : tiff_t) (data : List Byte) (off : Nat) :
    (ifd_at host tiff data off).entries.length = n_entries_at host tiff data off := by
  simp [ifd_at]

theorem read_ifd_data (host : Host) (tiff : tiff_t) (fp : FILE) (off : Nat) :
    (read_ifd host tiff fp off).2.data = fp.data := by
  unfold read_ifd
  simp only [fseek, fread]
  split_ifs <;> rfl

theorem read_ifd_ok_inv (host : Host) (tiff : tiff_t) (fp : FILE) (off : Nat) (ifd : ifd_t)
    (h : (read_ifd host tiff fp off).1 = Except.ok ifd) :
    ifd = ifd_at host tiff fp.data off
      ∧ off + 2 + 12 * n_entries_at host tiff fp.data off + 4 ≤ fp.data.length := by
  rw [read_ifd_fst] at h
  split_ifs at h with h1 h2 h3
  simp only [Except.ok.injEq] at h
  exact ⟨h.symm, by omega⟩

theorem read_ifd_take (host : Host) (tiff : tiff_t) (fp fpT : FILE) (off L : Nat)
    (hT : fpT.data = fp.data.take L) :
    (∃ e, (read_ifd host tiff fpT off).1 = Except.error e)
    ∨ ((read_ifd host tiff fpT off).1 = Except.ok (ifd_at host tiff fp.data off)
        ∧ (read_ifd host tiff fp off).1 = Except.ok (ifd_at host tiff fp.data off)
        ∧ off + 2 + 12 * n_entries_at host tiff fp.data off + 4 ≤ L) := by
  have hlen : fpT.data.length = min L fp.data.length := by rw [hT]; simp
  by_cases h : off + 2 + 12 * n_entries_at host tiff fpT.data off + 4 ≤ fpT.data.length
  · right
    have hn : n_entries_at host tiff fpT.data off = n_entries_at host tiff fp.data off := by
      rw [hT]; exact n_entries_at_take _ _ _ _ _ (by omega)
    rw [hn] at h
    have e1 := read_ifd_ok host tiff fpT off (by rw [hn]; exact h)
    have e2 := read_ifd_ok host tiff fp off (by omega)
    rw [e1, e2]
    refine ⟨?_, rfl, by omega⟩
    simp only [Except.ok.injEq]
    rw [hT]
    exact ifd_at_take _ _ _ _ _ (by omega)
  · left
    rw [read_ifd_fst]
    split_ifs
    · exact ⟨_, rfl⟩
    · exact ⟨_, rfl⟩
    · exact ⟨_, rfl⟩
    · omega

theorem read_tiff_loop_head (host : Host) (tiff : tiff_t) (fuel : Nat) (fp fp1 : FILE)
    (ifd : ifd_t) (chain : List ifd_t)
    (h : read_tiff_loop host tiff fuel fp ifd = some (Except.ok chain, fp1)) :
    ∃ rest, chain = ifd :: rest := by
  cases fuel with
  | zero => simp [read_tiff_loop] at h
  | succ fuel =>
    unfold read_tiff_loop at h
    split_ifs at h with hz
    · rcases hi : read_ifd host tiff fp (NATIVE4 host tiff ifd.next_ifd) with ⟨r, fp2⟩
      rw [hi] at h
      cases r with
      | error e => simp at h
      | ok nxt =>
        simp only at h
        rcases hl : read_tiff_loop host tiff fuel fp2 nxt with _ | ⟨r2, fp3⟩
        · rw [hl] at h; simp at h
        · rw [hl] at h
          cases r2 with
          | error e => simp at h
          | ok rest =>
            simp only [Option.some.injEq, Prod.mk.injEq, Except.ok.injEq] at h
            exact ⟨rest, h.1.symm⟩
    · simp only [Option.some.injEq, Prod.mk.injEq, Except.ok.injEq] at h
      exact ⟨[], h.1.symm⟩

theorem read_tiff_loop_take (host : Host) (tiff : tiff_t) (L : Nat) :
    ∀ (fuel : Nat) (fp fpT fp1 : FILE) (ifd : ifd_t) (chain : List ifd_t),
      fpT.data = fp.data.take L →
      read_tiff_loop host tiff fuel fp ifd = some (Except.ok chain, fp1) →
      (∃ d ∈ chain.tail, L < d.file_offset + 2 + 12 * d.entries.length + 4) →
      ∃ e fp2, read_tiff_loop host tiff fuel fpT ifd = some (Except.error e, fp2) := by
  intro fuel
  induction fuel with
  | zero => intro fp fpT fp1 ifd chain _ h; simp [read_tiff_loop] at h
  | succ fuel ih =>
    intro fp fpT fp1 ifd chain hT h hd
    unfold read_tiff_loop at h ⊢
    split_ifs at h ⊢ with hz
    · rcases hi : read_ifd host tiff fp (NATIVE4 host tiff ifd.next_ifd) with ⟨r, fp2⟩
      rw [hi] at h
      cases r with
      | error e => simp at h
      | ok nxt =>
        simp only at h
        rcases hl : read_tiff_loop host tiff fuel fp2 nxt with _ | ⟨r2, fp3⟩
        · rw [hl] at h; simp at h
        · rw [hl] at h
          cases r2 with
          | error e => simp at h
          | ok rest =>
            simp only [Option.some.injEq, Prod.mk.injEq, Except.ok.injEq] at h
            obtain ⟨rest1, hrest⟩ := read_tiff_loop_head host tiff fuel fp2 fp3 nxt rest hl
            have hfp2 : fp2.data = fp.data := by
              have := read_ifd_data host tiff fp (NATIVE4 host tiff ifd.next_ifd)
              rw [hi] at this; exact this
            rcases hiT : read_ifd host tiff fpT (NATIVE4 host tiff ifd.next_ifd) with ⟨rT, fpT2⟩
            have hfpT2 : fpT2.data = fpT.data := by
              have := read_ifd_data host tiff fpT (NATIVE4 host tiff ifd.next_ifd)
              rw [hiT] at this; exact this
            rcases read_ifd_take host tiff fp fpT (NATIVE4 host tiff ifd.next_ifd) L hT with
              ⟨e, he⟩ | ⟨h1, h2, h3⟩
            · rw [hiT] at he
              simp only at he
              subst he
              exact ⟨e, fpT2, rfl⟩
            · rw [hiT] at h1
              rw [hi] at h2
              simp only at h1 h2
              subst h1
              simp only [Except.ok.injEq] at h2
              obtain ⟨d, hdm, hdl⟩ := hd
              rw [← h.1] at hdm
              simp only [List.tail_cons] at hdm
              rw [hrest] at hdm
              have hdt : d ∈ rest.tail := by
                rcases List.mem_cons.mp hdm with hdn | hdr
                · exfalso
                  rw [hdn, h2] at hdl
                  rw [ifd_at_entries_length] at hdl
                  simp only [ifd_at] at hdl
                  omega
                · rw [hrest]; exact hdr
              have hih := ih fp2 fpT2 fp3 nxt rest (by rw [hfpT2, hT, hfp2])
                hl ⟨d, hdt, hdl⟩
              obtain ⟨e, fpe, hloop⟩ := hih
              rw [h2] at hloop
              simp only [hloop]
              exact ⟨e, fpe, rfl⟩
    · simp only [Option.some.injEq, Prod.mk.injEq, Except.ok.injEq] at h
      obtain ⟨d, hdm, _⟩ := hd
      rw [← h.1] at hdm
      simp at hdm

theorem header_at_take (host : Host) (data : List Byte) (L pos : Nat) (h : pos + 8 ≤ L) :
    header_at host (data.take L) pos = header_at host data pos := by
  unfold header_at
  rw [mem16_take _ _ _ _ (by omega), mem16_take _ _ _ _ (by omega), mem32_take _ _ _ _ (by omega)]

theorem read_tiff_take (host : Host) (fuel L : Nat) (fp fpT fp1 : FILE) (t : tiff_t)
    (hT : fpT.data = fp.data.take L) (hp : fpT.pos = fp.pos)
    (h : read_tiff host fuel fp = some (Except.ok t, fp1))
    (hd : ∃ d ∈ t.ifds, L < d.file_offset + 2 + 12 * d.entries.length + 4) :
    ∃ e fp2, read_tiff host fuel fpT = some (Except.error e, fp2) := by
  have hlen : fpT.data.length = min L fp.data.length := by rw [hT]; simp
  by_cases h8 : fp.pos + 8 ≤ fp.data.length
  · by_cases hL : fp.pos + 8 ≤ L
    · rw [read_tiff_header host fuel fp h8] at h
      rw [read_tiff_header host fuel fpT (by omega), hT, hp, header_at_take _ _ _ _ hL]
      generalize header_at host fp.data fp.pos = tiff at h ⊢
      split_ifs at h ⊢ with hm
      · simp at h
      rcases hi : read_ifd host tiff fp (NATIVE4 host tiff tiff.hdr.first_ifd) with ⟨r, fp2⟩
      rw [hi] at h
      cases r with
      | error e => simp at h
      | ok ifd =>
        simp only at h
        rcases hl : read_tiff_loop host tiff fuel fp2 ifd with _ | ⟨r2, fp3⟩
        · rw [hl] at h; simp at h
        · rw [hl] at h
          cases r2 with
          | error e => simp at h
          | ok chain =>
            simp only [Option.some.injEq, Prod.mk.injEq, Except.ok.injEq] at h
            obtain ⟨rest, hchain⟩ := read_tiff_loop_head host tiff fuel fp2 fp3 ifd chain hl
            have hfp2 : fp2.data = fp.data := by
              have := read_ifd_data host tiff fp (NATIVE4 host tiff tiff.hdr.first_ifd)
              rw [hi] at this; exact this
            rcases hiT : read_ifd host tiff fpT (NATIVE4 host tiff tiff.hdr.first_ifd) with ⟨rT, fpT2⟩
            have hfpT2 : fpT2.data = fpT.data := by
              have := read_ifd_data host tiff fpT (NATIVE4 host tiff tiff.hdr.first_ifd)
              rw [hiT] at this; exact this
            rcases read_ifd_take host tiff fp fpT (NATIVE4 host tiff tiff.hdr.first_ifd) L hT with
              ⟨e, he⟩ | ⟨h1, h2, h3⟩
            · rw [hiT] at he
              simp only at he
              subst he
              exact ⟨e, fpT2, rfl⟩
            · rw [hiT] at h1
              rw [hi] at h2
              simp only at h1 h2
              subst h1
              simp only [Except.ok.injEq] at h2
              obtain ⟨d, hdm, hdl⟩ := hd
              rw [← h.1] at hdm
              simp only at hdm
              rw [hchain] at hdm
              have hdt : d ∈ chain.tail := by
                rcases List.mem_cons.mp hdm with hdn | hdr
                · exfalso
                  rw [hdn, h2] at hdl
                  rw [ifd_at_entries_length] at hdl
                  simp only [ifd_at] at hdl
                  omega
                · rw [hchain]; exact hdr
              obtain ⟨e, fpe, hloop⟩ := read_tiff_loop_take host tiff L fuel fp2 fpT2 fp3 ifd chain
                (by rw [hfpT2, hT, hfp2]) hl ⟨d, hdt, hdl⟩
              rw [h2] at hloop
              simp only [hloop]
              exact ⟨e, fpe, rfl⟩
    · obtain ⟨fp2, hs⟩ := read_tiff_short host fuel fpT (by omega)
      exact ⟨_, fp2, hs⟩
  · obtain ⟨fp2, hs⟩ := read_tiff_short host fuel fp (by omega)
    rw [hs] at h
    simp at h

/-- The test of `read_ifd` and its effect on truncated files.  `read_ifd` at
offset `o` succeeds exactly when the file has at least `o + 2 + 12 * m + 4`
bytes, `m` being `n_entries_at`, the number of entries that `read_ifd` asks
for (the count after `NATIVE2`; `n_entries_at_eq` tells when it is the count
written in the file).  When a file loads and is then cut anywhere before the
end of one of the IFDs of its chain (in particular mid-way through one of its
entries), `read_tiff` on the cut file ends in an error with the same fuel: no
`tiff_t` is returned. -/
theorem truncation_handling (host : Host) (tiff : tiff_t) (fuel : Nat) (fp : FILE) (o : Nat) :
    ((∃ ifd, (read_ifd host tiff fp o).1 = Except.ok ifd)
      ↔ o + 2 + 12 * n_entries_at host tiff fp.data o + 4 ≤ fp.data.length)
    ∧ (∀ t fp1 d L, read_tiff host fuel fp = some (Except.ok t, fp1) → d ∈ t.ifds →
        L < d.file_offset + 2 + 12 * d.entries.length + 4 →
        ∃ e fp2, read_tiff host fuel { data := fp.data.take L, pos := fp.pos }
          = some (Except.error e, fp2)) := by
  constructor
  · rw [read_ifd_fst]
    constructor
    · rintro ⟨ifd, h⟩
      split_ifs at h
      omega
    · intro h
      refine ⟨ifd_at host tiff fp.data o, ?_⟩
      rw [if_neg (by omega), if_neg (by omega), if_neg (by omega)]
  · intro t fp1 d L h hd hL
    exact read_tiff_take host fuel L fp _ fp1 t rfl rfl h ⟨d, hd, hL⟩

/-- An instance: `sample_le` cut after 15 bytes, in the middle of its only entry. -/
theorem truncation_handling_witness :
    ∃ e fp2, read_tiff Host.little 1 { data := sample_le.take 15, pos := 0 }
      = some (Except.error e, fp2) :=
  (truncation_handling Host.little (sample_tiff 0x4949) 1 (fopen sample_le) 8).2
    (sample_tiff 0x4949) { data := sample_le, pos := 26 }
    { hdr := { count := 1 }, entries := [{ tag := 0x9212, type := 3, count := 1, offset := 0 }],
      file_offset := 8, next_ifd := 0 } 15
    rfl (by decide) (by decide)

/-! ### Written IFDs read back -/

theorem byte_val (v : Nat) : (byte v).val = v % 256 := rfl

theorem put16_length (big : Bool) (v : Nat) : (put16 big v).length = 2 := by
  cases big <;> rfl

theorem put32_length (big : Bool) (v : Nat) : (put32 big v).length = 4 := by
  cases big <;> rfl

theorem put_entry_length (big : Bool) (q : dir_ent_t) : (put_entry big q).length = 12 := by
  simp [put_entry, put16_length, put32_length]

theorem put_entries_length (big : Bool) (quads : List dir_ent_t) :
    (put_entries big quads).length = 12 * quads.length := by
  induction quads with
  | nil => rfl
  | cons q qs ih => simp [put_entries, put_entry_length, ih]; omega

theorem put_ifd_length (big : Bool) (quads : List dir_ent_t) (next : Nat) :
    (put_ifd big quads next).length = 2 + 12 * quads.length + 4 := by
  simp [put_ifd, put16_length, put32_length, put_entries_length]
  omega

theorem getD_mid (pre X post : List Byte) (i : Nat) (d : Byte) (h : i < X.length) :
    (pre ++ X ++ post).getD (pre.length + i) d = X.getD i d := by
  rw [List.append_assoc, List.getD_append_right _ _ _ _ (by omega)]
  rw [Nat.add_sub_cancel_left, List.getD_append _ _ _ _ h]

theorem put_entries_getD (big : Bool) (d : Byte) :
    ∀ (quads : List dir_ent_t) (i j : Nat) (hi : i < quads.length), j < 12 →
      (put_entries big quads).getD (12 * i + j) d = (put_entry big (quads.get ⟨i, hi⟩)).getD j d := by
  intro quads
  induction quads with
  | nil => intro i j hi; simp at hi
  | cons q qs ih =>
    intro i j hi hj
    cases i with
    | zero =>
      simp only [put_entries, Nat.mul_zero, Nat.zero_add, List.get_cons_zero]
      rw [List.getD_append _ _ _ _ (by rw [put_entry_length]; exact hj)]
      rfl
    | succ i =>
      simp only [put_entries, List.get_cons_succ]
      rw [List.getD_append_right _ _ _ _ (by rw [put_entry_length]; omega), put_entry_length]
      have : 12 * (i + 1) + j - 12 = 12 * i + j := by omega
      rw [this]
      exact ih i j (by simpa using hi) hj

theorem field16_of_put (big : Bool) (data : List Byte) (b v : Nat)
    (h0 : data.getD b 0 = (put16 big v).getD 0 0)
    (h1 : data.getD (b + 1) 0 = (put16 big v).getD 1 0) :
    field16 big data b = v % 65536 := by
  cases big <;>
    simp only [field16, be16, le16, h0, h1, put16, if_true, if_false, Bool.false_eq_true,
      List.getD_cons_zero, List.getD_cons_succ, byte_val] <;> omega

theorem field32_of_put (big : Bool) (data : List Byte) (b v : Nat)
    (h0 : data.getD b 0 = (put32 big v).getD 0 0)
    (h1 : data.getD (b + 1) 0 = (put32 big v).getD 1 0)
    (h2 : data.getD (b + 2) 0 = (put32 big v).getD 2 0)
    (h3 : data.getD (b + 3) 0 = (put32 big v).getD 3 0) :
    field32 big data b = v % 4294967296 := by
  cases big <;>
    simp only [field32, be32, le32, h0, h1, h2, h3, put32, if_true, if_false, Bool.false_eq_true,
      List.getD_cons_zero, List.getD_cons_succ, byte_val] <;> omega

theorem put_entry_getD (big : Bool) (q : dir_ent_t) :
    (∀ j, j < 2 → (put_entry big q).getD j 0 = (put16 big q.tag).getD j 0)
    ∧ (∀ j, j < 2 → (put_entry big q).getD (2 + j) 0 = (put16 big q.type).getD j 0)
    ∧ (∀ j, j < 4 → (put_entry big q).getD (4 + j) 0 = (put32 big q.count).getD j 0)
    ∧ (∀ j, j < 4 → (put_entry big q).getD (8 + j) 0 = (put32 big q.offset).getD j 0) := by
  refine ⟨?_, ?_, ?_, ?_⟩ <;> intro j hj <;> interval_cases j <;> cases big <;> rfl

theorem uint16_int16 (v : Nat) : uint16 (int16 v) = v % 65536 := by
  unfold uint16 int16
  split_ifs <;> omega

theorem uint32_cast (n : Nat) (h : n < 4294967296) : uint32 (n : Int) = n := by
  unfold uint32; omega

theorem uint32_int16 (v : Nat) (h : v < 65536) :
    uint32 (int16 v) = if 32768 ≤ v then v + 4294901760 else v := by
  unfold uint32 int16
  split_ifs <;> omega

theorem bswap_16_lt (x : Nat) : bswap_16 x < 65536 := by
  unfold bswap_16; omega

/-- The value `n_entries` in terms of the count field read in the byte order of the file. -/
theorem n_entries_at_eq (host : Host) (tiff : tiff_t) (data : List Byte) (off : Nat) :
    n_entries_at host tiff data off =
      if host_order host (ORDER_BE tiff) = true ∧ 32768 ≤ field16 (ORDER_BE tiff) data off then
        field16 (ORDER_BE tiff) data off + 4294901760
      else field16 (ORDER_BE tiff) data off := by
  have hs := bswap_16_mem16 data off
  have hl := mem16_lt Host.little data off
  have hg := mem16_lt Host.big data off
  have el : le16 data off = mem16 Host.little data off := rfl
  have eg : be16 data off = mem16 Host.big data off := rfl
  cases host <;> cases hb : ORDER_BE tiff <;>
    simp only [n_entries_at, NATIVE2, hb, if_true, if_false, Bool.false_eq_true, htobe16, le16toh,
      host_order, Bool.not_false, Bool.not_true, true_and, false_and, field16, el, eg,
      uint16_int16, Nat.mod_eq_of_lt hl, Nat.mod_eq_of_lt hg, hs.1, hs.2,
      uint32_cast _ (Nat.lt_trans hl (by decide)), uint32_cast _ (Nat.lt_trans hg (by decide)),
      uint32_int16 _ hl, uint32_int16 _ hg]

theorem put_ifd_getD_count (big : Bool) (quads : List dir_ent_t) (next j : Nat) (d : Byte)
    (hj : j < 2) :
    (put_ifd big quads next).getD j d = (put16 big quads.length).getD j d := by
  unfold put_ifd
  rw [List.append_assoc, List.getD_append _ _ _ _ (by rw [put16_length]; exact hj)]

theorem put_ifd_getD_entry (big : Bool) (quads : List dir_ent_t) (next i j : Nat) (d : Byte)
    (hi : i < quads.length) (hj : j < 12) :
    (put_ifd big quads next).getD (2 + 12 * i + j) d
      = (put_entry big (quads.get ⟨i, hi⟩)).getD j d := by
  unfold put_ifd
  rw [List.append_assoc, List.getD_append_right _ _ _ _ (by rw [put16_length]; omega), put16_length,
    List.getD_append _ _ _ _ (by rw [put_entries_length]; omega)]
  have : 2 + 12 * i + j - 2 = 12 * i + j := by omega
  rw [this]
  exact put_entries_getD big d quads i j hi hj

theorem put_ifd_getD_next (big : Bool) (quads : List dir_ent_t) (next j : Nat) (d : Byte) :
    (put_ifd big quads next).getD (2 + 12 * quads.length + j) d = (put32 big next).getD j d := by
  unfold put_ifd
  rw [List.getD_append_right _ _ _ _
    (by rw [List.length_append, put16_length, put_entries_length]; omega)]
  rw [List.length_append, put16_length, put_entries_length]
  have : 2 + 12 * quads.length + j - (2 + 12 * quads.length) = j := by omega
  rw [this]

/-- The fields of the entry the machine reads at `b`, normalized, when the 12
bytes at `b` are those of the written quadruple `q`. -/
theorem dir_ent_at_of_put (host : Host) (tiff : tiff_t) (data : List Byte) (b : Nat) (q : dir_ent_t)
    (hq : q.tag < 65536 ∧ q.type < 65536 ∧ q.count < 4294967296 ∧ q.offset < 4294967296)
    (hb : ∀ j, j < 12 → data.getD (b + j) 0 = (put_entry (ORDER_BE tiff) q).getD j 0) :
    NATIVE2 host tiff ((dir_ent_at host data b).tag : Int) = (q.tag : Int)
    ∧ NATIVE2 host tiff ((dir_ent_at host data b).type : Int) = (q.type : Int)
    ∧ NATIVE4 host tiff (dir_ent_at host data b).count = q.count
    ∧ NATIVE4 host tiff (dir_ent_at host data b).offset = q.offset := by
  obtain ⟨g1, g2, g3, g4⟩ := put_entry_getD (ORDER_BE tiff) q
  have f16 : ∀ c, (if ORDER_BE tiff then be16 data c else le16 data c) = field16 (ORDER_BE tiff) data c :=
    fun c => rfl
  have f32 : ∀ c, (if ORDER_BE tiff then be32 data c else le32 data c) = field32 (ORDER_BE tiff) data c :=
    fun c => rfl
  simp only [dir_ent_at, NATIVE2_mem16, NATIVE4_mem32, f16, f32]
  refine ⟨?_, ?_, ?_, ?_⟩
  · rw [field16_of_put (ORDER_BE tiff) data b q.tag
      (by rw [← g1 0 (by omega)]; exact hb 0 (by omega))
      (by rw [← g1 1 (by omega)]; exact hb 1 (by omega))]
    rw [Nat.mod_eq_of_lt hq.1]
  · rw [field16_of_put (ORDER_BE tiff) data (b + 2) q.type
      (by rw [← g2 0 (by omega)]; exact hb 2 (by omega))
      (by rw [← g2 1 (by omega)]; exact hb 3 (by omega))]
    rw [Nat.mod_eq_of_lt hq.2.1]
  · rw [field32_of_put (ORDER_BE tiff) data (b + 4) q.count
      (by rw [← g3 0 (by omega)]; exact hb 4 (by omega))
      (by rw [← g3 1 (by omega)]; exact hb 5 (by omega))
      (by rw [← g3 2 (by omega)]; exact hb 6 (by omega))
      (by rw [← g3 3 (by omega)]; exact hb 7 (by omega))]
    rw [Nat.mod_eq_of_lt hq.2.2.1]
  · rw [field32_of_put (ORDER_BE tiff) data (b + 8) q.offset
      (by rw [← g4 0 (by omega)]; exact hb 8 (by omega))
      (by rw [← g4 1 (by omega)]; exact hb 9 (by omega))
      (by rw [← g4 2 (by omega)]; exact hb 10 (by omega))
      (by rw [← g4 3 (by omega)]; exact hb 11 (by omega))]
    rw [Nat.mod_eq_of_lt hq.2.2.2]

/-- The count field of a written IFD, read in the byte order it was written in. -/
theorem field16_count_of_put (big : Bool) (pre post : List Byte) (quads : List dir_ent_t)
    (next : Nat) (hn : quads.length < 65536) :
    field16 big (pre ++ put_ifd big quads next ++ post) pre.length = quads.length := by
  have hX : 1 < (put_ifd big quads next).length := by rw [put_ifd_length]; omega
  rw [field16_of_put big _ pre.length quads.length
    (by
      have := getD_mid pre (put_ifd big quads next) post 0 0 (by omega)
      rw [Nat.add_zero] at this
      rw [this, put_ifd_getD_count _ _ _ _ _ (by omega)])
    (by rw [getD_mid pre (put_ifd big quads next) post 1 0 hX,
          put_ifd_getD_count _ _ _ _ _ (by omega)])]
  exact Nat.mod_eq_of_lt hn

/-- C6. An IFD written at offset `pre.length` in the byte order the header
declares, with `n ≤ 32767` entries given as quadruples and a next offset, is
read back by `read_ifd` at that offset, on either machine, as an IFD with
exactly `n` entries whose `i`-th entry, its fields normalized with `NATIVE2`
and `NATIVE4`, is the `i`-th quadruple. -/
theorem read_ifd_entry_fidelity (host : Host) (tiff : tiff_t) (fp : FILE)
    (pre post : List Byte) (quads : List dir_ent_t) (next : Nat)
    (hn : quads.length ≤ 32767)
    (hq : ∀ q ∈ quads,
      q.tag < 65536 ∧ q.type < 65536 ∧ q.count < 4294967296 ∧ q.offset < 4294967296)
    (hw : fp.data = pre ++ put_ifd (ORDER_BE tiff) quads next ++ post) :
    ∃ ifd fp1, read_ifd host tiff fp pre.length = (Except.ok ifd, fp1)
      ∧ ifd.entries.length = quads.length
      ∧ ∀ i (hi : i < quads.length), ∃ e, ifd.entries.get? i = some e
          ∧ NATIVE2 host tiff (e.tag : Int) = ((quads.get ⟨i, hi⟩).tag : Int)
          ∧ NATIVE2 host tiff (e.type : Int) = ((quads.get ⟨i, hi⟩).type : Int)
          ∧ NATIVE4 host tiff e.count = (quads.get ⟨i, hi⟩).count
          ∧ NATIVE4 host tiff e.offset = (quads.get ⟨i, hi⟩).offset := by
  have hc : field16 (ORDER_BE tiff) fp.data pre.length = quads.length := by
    rw [hw]; exact field16_count_of_put _ _ _ _ _ (by omega)
  have hN : n_entries_at host tiff fp.data pre.length = quads.length := by
    rw [n_entries_at_eq, hc, if_neg (by omega)]
  have hlen : fp.data.length = pre.length + (2 + 12 * quads.length + 4) + post.length := by
    rw [hw]; simp [put_ifd_length]; omega
  refine ⟨ifd_at host tiff fp.data pre.length, _,
    read_ifd_ok host tiff fp pre.length (by rw [hN]; omega), ?_, ?_⟩
  · rw [ifd_at_entries_length, hN]
  · intro i hi
    refine ⟨dir_ent_at host fp.data (pre.length + 2 + 12 * i), ?_, ?_⟩
    · simp only [ifd_at, hN, List.get?_eq_getElem?, List.getElem?_map,
        List.getElem?_range hi, Option.map_some']
    · apply dir_ent_at_of_put host tiff fp.data _ _ (hq _ (List.get_mem _ _ _))
      intro j hj
      rw [hw]
      have := getD_mid pre (put_ifd (ORDER_BE tiff) quads next) post (2 + 12 * i + j) 0
        (by rw [put_ifd_length]; omega)
      have e : pre.length + 2 + 12 * i + j = pre.length + (2 + 12 * i + j) := by omega
      rw [e, this]
      exact put_ifd_getD_entry _ _ _ _ _ _ hi hj

/-- C6, an instance: the IFD of `sample_be`, read on a little-endian machine. -/
theorem read_ifd_entry_fidelity_witness :
    ∃ ifd fp1, read_ifd Host.little (sample_tiff 0x4D4D) (fopen sample_be) 8 = (Except.ok ifd, fp1)
      ∧ ifd.entries.length = 1
      ∧ ∀ i (hi : i < 1), ∃ e, ifd.entries.get? i = some e
          ∧ NATIVE2 Host.little (sample_tiff 0x4D4D) (e.tag : Int)
              = (([{ tag := 0x9212, type := 3, count := 1, offset := 0 }] : List dir_ent_t).get ⟨i, hi⟩).tag
          ∧ NATIVE2 Host.little (sample_tiff 0x4D4D) (e.type : Int)
              = (([{ tag := 0x9212, type := 3, count := 1, offset := 0 }] : List dir_ent_t).get ⟨i, hi⟩).type
          ∧ NATIVE4 Host.little (sample_tiff 0x4D4D) e.count
              = (([{ tag := 0x9212, type := 3, count := 1, offset := 0 }] : List dir_ent_t).get ⟨i, hi⟩).count
          ∧ NATIVE4 Host.little (sample_tiff 0x4D4D) e.offset
              = (([{ tag := 0x9212, type := 3, count := 1, offset := 0 }] : List dir_ent_t).get ⟨i, hi⟩).offset :=
  read_ifd_entry_fidelity Host.little (sample_tiff 0x4D4D) (fopen sample_be)
    [0x4D, 0x4D, 0, 0x2A, 0, 0, 0, 8] [] [{ tag := 0x9212, type := 3, count := 1, offset := 0 }] 0
    (by decide) (by decide) (by decide)

/-! ### The main program -/

theorem main_load_append (host : Host) (fuel : Nat) :
    ∀ (pre rest : List (String × Option (List Byte))) (acc : List tiff_t),
      main_load host fuel (pre ++ rest) acc =
        match main_load host fuel pre acc with
        | some (Except.ok tiffs) => main_load host fuel rest tiffs
        | r => r := by
  intro pre
  induction pre with
  | nil => intro rest acc; rfl
  | cons a pre ih =>
    intro rest acc
    obtain ⟨fname, c⟩ := a
    cases c with
    | none => simp only [List.cons_append, main_load]; exact ih rest acc
    | some content =>
      simp only [List.cons_append, main_load]
      rcases new_tiff host fuel (fopen content) fname with _ | ⟨r, fp1⟩
      · rfl
      · cases r with
        | error e => rfl
        | ok t => exact ih rest (add_tiff acc t)

theorem main_load_skip (host : Host) (fuel : Nat) (fname : String)
    (pre rest : List (String × Option (List Byte))) (acc : List tiff_t) :
    main_load host fuel (pre ++ (fname, none) :: rest) acc = main_load host fuel (pre ++ rest) acc := by
  rw [main_load_append, main_load_append]
  rcases main_load host fuel pre acc with _ | r
  · rfl
  · cases r with
    | error e => rfl
    | ok t => rfl

theorem new_tiff_error (host : Host) (fuel : Nat) (fp fp1 : FILE) (fname : String) (e : Err)
    (h : read_tiff host fuel fp = some (Except.error e, fp1)) :
    new_tiff host fuel fp fname = some (Except.error e, fp1) := by
  simp only [new_tiff, h]

theorem new_tiff_ok (host : Host) (fuel : Nat) (fp fp1 : FILE) (fname : String) (t : tiff_t)
    (h : read_tiff host fuel fp = some (Except.ok t, fp1)) :
    new_tiff host fuel fp fname = some (Except.ok { t with fname := fname }, fp1) := by
  simp only [new_tiff, h]

/-- C2 as stated fails: with a truncated file between two good ones the process
exits with `EXIT_FAILURE` and prints nothing, while without that file
it prints the results of the two good files and exits with 0. -/
theorem batch_isolation_counterexample :
    main Host.little 1 [("a", some sample_le), ("b", some (sample_le.take 15)), ("c", some sample_le)]
      = some (EXIT_FAILURE, [])
    ∧ main Host.little 1 [("a", some sample_le), ("c", some sample_le)]
      = some (0, [Line.tag "c" 3, Line.tag "a" 3]) := by
  constructor <;> rfl

/-- C2, amended.  A file that cannot be opened is skipped: the run is the run
without it.  A file that opens but whose load fails (truncated, or invalid
magic number), the arguments before it having been loaded, ends the process
with `EXIT_FAILURE` and nothing on standard output, whatever the other
files are. -/
theorem batch_corrupt_file_exits (host : Host) (fuel : Nat)
    (pre rest : List (String × Option (List Byte))) (fname : String) (content : List Byte)
    (tiffs : List tiff_t) (e : Err) (fp1 : FILE)
    (hpre : main_load host fuel pre [] = some (Except.ok tiffs))
    (hbad : read_tiff host fuel (fopen content) = some (Except.error e, fp1)) :
    main host fuel (pre ++ (fname, some content) :: rest) = some (EXIT_FAILURE, [])
    ∧ main host fuel (pre ++ (fname, none) :: rest) = main host fuel (pre ++ rest) := by
  constructor
  · unfold main
    rw [main_load_append, hpre]
    simp only [main_load, new_tiff_error host fuel _ fp1 fname e hbad]
  · unfold main
    rw [main_load_skip]

/-- C2 amended, an instance: the batch of the counterexample. -/
theorem batch_corrupt_file_exits_witness :
    main Host.little 1 ([("a", some sample_le)] ++ ("b", some (sample_le.take 15)) :: [("c", some sample_le)])
        = some (EXIT_FAILURE, [])
    ∧ main Host.little 1 ([("a", some sample_le)] ++ ("b", none) :: [("c", some sample_le)])
        = main Host.little 1 ([("a", some sample_le)] ++ [("c", some sample_le)]) :=
  batch_corrupt_file_exits Host.little 1 [("a", some sample_le)] [("c", some sample_le)] "b"
    (sample_le.take 15) [{ sample_tiff 0x4949 with fname := "a" }] (Err.ifd_entries 1)
    { data := sample_le.take 15, pos := 15 } rfl rfl

theorem foldl_add_tiff (ts acc : List tiff_t) :
    List.foldl add_tiff acc ts = ts.reverse ++ acc := by
  induction ts generalizing acc with
  | nil => rfl
  | cons t ts ih => simp [List.foldl, ih, add_tiff]

theorem main_load_all (host : Host) (fuel : Nat) :
    ∀ (files : List (String × List Byte)) (ts acc : List tiff_t),
      List.Forall₂ (fun f t => ∃ fp1, new_tiff host fuel (fopen f.2) f.1 = some (Except.ok t, fp1))
        files ts →
      main_load host fuel (files.map (fun f => (f.1, some f.2))) acc
        = some (Except.ok (ts.reverse ++ acc)) := by
  intro files ts acc h
  induction h generalizing acc with
  | nil => rfl
  | @cons f t files ts hft _ ih =>
    obtain ⟨fp1, h1⟩ := hft
    simp only [List.map_cons, main_load, h1]
    rw [ih]
    simp [add_tiff]

theorem mem32_eq_zero_iff (host : Host) (big : Bool) (data : List Byte) (off : Nat) :
    mem32 host data off = 0 ↔ field32 big data off = 0 := by
  cases host <;> cases big <;>
    simp only [mem32, field32, be32, le32, if_true, if_false, Bool.false_eq_true] <;> omega

theorem NATIVE4_eq_zero_iff (host : Host) (h : tiff_t) (data : List Byte) (off : Nat) :
    NATIVE4 host h (mem32 host data off) = 0 ↔ mem32 host data off = 0 := by
  rw [NATIVE4_mem32, mem32_eq_zero_iff host (ORDER_BE h)]
  rfl

theorem n_entries_at_written (host : Host) (tiff : tiff_t) (data : List Byte) (o : Nat)
    (h : ifd_written host (ORDER_BE tiff) data o) :
    n_entries_at host tiff data o = field16 (ORDER_BE tiff) data o := by
  rw [n_entries_at_eq, if_neg]
  rintro ⟨h1, h2⟩
  rcases h.2 with h3 | h3
  · omega
  · rw [h1] at h3; exact Bool.noConfusion h3

theorem read_tiff_loop_chain (host : Host) (tiff : tiff_t) (data : List Byte) :
    ∀ (os : List Nat) (o fuel : Nat) (fp : FILE), fp.data = data →
      chain_written host (ORDER_BE tiff) data (o :: os) → os.length + 1 ≤ fuel →
      ∃ fp1, read_tiff_loop host tiff fuel fp (ifd_at host tiff data o)
        = some (Except.ok ((o :: os).map (ifd_at host tiff data)), fp1) := by
  intro os
  induction os with
  | nil =>
    intro o fuel fp hfp hc hf
    obtain ⟨hw, hz⟩ := hc
    obtain ⟨fuel, rfl⟩ : ∃ k, fuel = k + 1 := ⟨fuel - 1, by omega⟩
    have hn := n_entries_at_written host tiff data o hw
    have hx : (ifd_at host tiff data o).next_ifd = 0 := by
      simp only [ifd_at, hn]
      exact (mem32_eq_zero_iff host (ORDER_BE tiff) data _).mpr hz
    unfold read_tiff_loop
    rw [if_neg (by simp [hx])]
    exact ⟨fp, rfl⟩
  | cons o2 rest ih =>
    intro o fuel fp hfp hc hf
    obtain ⟨hw, hnx, hne, hrest⟩ := hc
    obtain ⟨fuel, rfl⟩ : ∃ k, fuel = k + 1 := ⟨fuel - 1, by simp at hf; omega⟩
    have hn := n_entries_at_written host tiff data o hw
    have hraw : (ifd_at host tiff data o).next_ifd
        = mem32 host data (o + 2 + 12 * field16 (ORDER_BE tiff) data o) := by
      simp only [ifd_at, hn]
    have hx : (ifd_at host tiff data o).next_ifd ≠ 0 := by
      rw [hraw]
      intro h0
      rw [mem32_eq_zero_iff host (ORDER_BE tiff)] at h0
      omega
    have hN4 : NATIVE4 host tiff (ifd_at host tiff data o).next_ifd = o2 := by
      rw [hraw, NATIVE4_mem32]
      exact hnx
    have hw2 : ifd_written host (ORDER_BE tiff) data o2 := by
      cases rest with
      | nil => exact hrest.1
      | cons o3 r => exact hrest.1
    have hn2 := n_entries_at_written host tiff data o2 hw2
    have hread := read_ifd_ok host tiff fp o2 (by rw [hfp, hn2]; exact hw2.1)
    obtain ⟨fp1, hloop⟩ := ih o2 fuel
      { data := fp.data, pos := o2 + 2 + 12 * n_entries_at host tiff fp.data o2 + 4 }
      hfp hrest (by simp at hf; omega)
    unfold read_tiff_loop
    rw [if_pos hx, hN4, hread]
    simp only
    rw [hfp] at hloop ⊢
    rw [hloop]
    exact ⟨fp1, rfl⟩

/-- The load of a file that holds a chain of IFDs at the offsets `o :: os`. -/
theorem read_tiff_chain_eq (host : Host) (data : List Byte) (o : Nat) (os : List Nat) (fuel : Nat)
    (h8 : 8 ≤ data.length)
    (hm : field16 (declares_big data 0) data 2 = 42)
    (h1 : field32 (declares_big data 0) data 4 = o)
    (hc : chain_written host (declares_big data 0) data (o :: os))
    (hf : os.length + 1 ≤ fuel) :
    ∃ fp1, read_tiff host fuel (fopen data)
      = some (Except.ok { header_at host data 0 with
          ifds := (o :: os).map (ifd_at host (header_at host data 0) data) }, fp1) := by
  have hB := ORDER_BE_header_at host data 0
  rw [← hB] at hc h1
  rw [read_tiff_header host fuel (fopen data) (by simpa [fopen] using h8)]
  simp only [fopen]
  rw [if_neg (by rw [universe_header_at, hm]; simp)]
  have hN4 : NATIVE4 host (header_at host data 0) (header_at host data 0).hdr.first_ifd = o := by
    have := NATIVE4_mem32 host (header_at host data 0) data (0 + 4)
    rw [← h1]
    exact this
  have hw : ifd_written host (ORDER_BE (header_at host data 0)) data o := by
    cases os with
    | nil => exact hc.1
    | cons o3 r => exact hc.1
  have hn := n_entries_at_written host (header_at host data 0) data o hw
  have hread := read_ifd_ok host (header_at host data 0) { data := data, pos := 0 } o
    (by rw [hn]; exact hw.1)
  obtain ⟨fp1, hloop⟩ := read_tiff_loop_chain host (header_at host data 0) data os o fuel
    { data := data, pos := o + 2 + 12 * n_entries_at host (header_at host data 0) data o + 4 }
    rfl hc hf
  rw [hN4, hread]
  simp only
  rw [hloop]
  exact ⟨fp1, rfl⟩

/-! ### Fuel -/

/-- More fuel does not change a result of the loop. -/
theorem read_tiff_loop_mono (host : Host) (tiff : tiff_t) :
    ∀ (fuel : Nat) (fp : FILE) (ifd : ifd_t) (r : Except Err (List ifd_t) × FILE),
      read_tiff_loop host tiff fuel fp ifd = some r →
      read_tiff_loop host tiff (fuel + 1) fp ifd = some r := by
  intro fuel
  induction fuel with
  | zero => intro fp ifd r h; simp [read_tiff_loop] at h
  | succ fuel ih =>
    intro fp ifd r h
    unfold read_tiff_loop at h ⊢
    split_ifs at h ⊢ with hz
    · rcases hi : read_ifd host tiff fp (NATIVE4 host tiff ifd.next_ifd) with ⟨r1, fp1⟩
      rw [hi] at h
      cases r1 with
      | error e => exact h
      | ok nxt =>
        simp only at h ⊢
        rcases hl : read_tiff_loop host tiff fuel fp1 nxt with _ | r2
        · rw [hl] at h; simp at h
        · rw [hl] at h
          rw [ih fp1 nxt r2 hl]
          exact h
    · exact h

/-- More fuel does not change a result of `read_tiff`. -/
theorem read_tiff_mono (host : Host) (fuel : Nat) (fp : FILE) (r : Except Err tiff_t × FILE)
    (h : read_tiff host fuel fp = some r) : read_tiff host (fuel + 1) fp = some r := by
  by_cases h8 : fp.pos + 8 ≤ fp.data.length
  · rw [read_tiff_header host fuel fp h8] at h
    rw [read_tiff_header host (fuel + 1) fp h8]
    generalize header_at host fp.data fp.pos = tiff at h ⊢
    split_ifs at h ⊢ with hm
    · exact h
    · rcases hi : read_ifd host tiff fp (NATIVE4 host tiff tiff.hdr.first_ifd) with ⟨r1, fp1⟩
      rw [hi] at h
      cases r1 with
      | error e => exact h
      | ok ifd =>
        simp only at h ⊢
        rcases hl : read_tiff_loop host tiff fuel fp1 ifd with _ | r2
        · rw [hl] at h; simp at h
        · rw [hl] at h
          rw [read_tiff_loop_mono host tiff fuel fp1 ifd r2 hl]
          exact h
  · have hl : ¬ ((fp.data.drop fp.pos).take 8).length = 8 := by rw [length_take_drop]; omega
    unfold read_tiff at h ⊢
    simp only [fread, Nat.one_mul, Nat.div_one, ne_eq, hl, not_false_eq_true, if_true] at h ⊢
    exact h

/-! ### The scan -/

theorem scan_entries_in_bounds (host : Host) (tiff : tiff_t) (ifd : ifd_t) :
    ∀ (todo i : Nat), i + todo ≤ ifd.entries.length →
      scan_entries host tiff ifd todo i
        = some ((((ifd.entries.drop i).take todo).filter
            (fun e => decide (NATIVE2 host tiff (e.tag : Int) = 0x9212))).map (fun e => e.type)) := by
  intro todo
  induction todo with
  | zero => intro i _; simp [scan_entries]
  | succ todo ih =>
    intro i hi
    have hlt : i < ifd.entries.length := by omega
    have hd : ifd.entries.drop i = ifd.entries[i] :: ifd.entries.drop (i + 1) :=
      List.drop_eq_getElem_cons hlt
    unfold scan_entries
    rw [List.get?_eq_getElem?, List.getElem?_eq_getElem hlt]
    simp only
    rw [ih (i + 1) (by omega), hd, List.take_succ_cons]
    by_cases hm : NATIVE2 host tiff (ifd.entries[i].tag : Int) = 0x9212
    · simp [hm, List.filter_cons]
    · simp [hm, List.filter_cons]

/-- The loop bound of the scan is the number of entries loaded when the file
is in the byte order of the machine. -/
theorem ifd_at_count_host_order (host : Host) (tiff : tiff_t) (data : List Byte) (off : Nat)
    (h : host_order host (ORDER_BE tiff) = true) :
    uint32 (ifd_at host tiff data off).hdr.count = (ifd_at host tiff data off).entries.length := by
  rw [ifd_at_entries_length]
  cases host <;> cases hb : ORDER_BE tiff <;> simp only [hb, host_order] at h <;>
    try (exact Bool.noConfusion h)
  all_goals simp only [ifd_at, n_entries_at, NATIVE2, hb, if_true, if_false, Bool.false_eq_true]

/-- The outer loop of the scan when every inner bound is the number of entries. -/
theorem scan_ifds_in_bounds (host : Host) (tiff : tiff_t) :
    ∀ (ifds : List ifd_t), (∀ d ∈ ifds, uint32 d.hdr.count = d.entries.length) →
      scan_ifds host tiff ifds
        = some ((ifds.map (fun d => (d.entries.filter
            (fun e => decide (NATIVE2 host tiff (e.tag : Int) = 0x9212))).map
              (fun e => e.type))).flatten) := by
  intro ifds
  induction ifds with
  | nil => intro _; rfl
  | cons d rest ih =>
    intro h
    have hd := h d (List.mem_cons_self _ _)
    have hr := ih (fun x hx => h x (List.mem_cons_of_mem _ hx))
    unfold scan_ifds
    rw [hd, scan_entries_in_bounds host tiff d _ 0 (by omega), List.drop_zero,
      List.take_of_length_le (Nat.le_refl _), hr]
    simp

/-! ### Files that end in zero bytes -/

theorem put_entry_zero (big : Bool) : put_entry big zero_ent = List.replicate 12 0 := by
  cases big <;> rfl

theorem put_entries_append (big : Bool) (a b : List dir_ent_t) :
    put_entries big (a ++ b) = put_entries big a ++ put_entries big b := by
  induction a with
  | nil => rfl
  | cons q qs ih => simp [put_entries, ih]

theorem put_entries_replicate_zero (big : Bool) (n : Nat) :
    put_entries big (List.replicate n zero_ent) = List.replicate (12 * n) 0 := by
  induction n with
  | zero => rfl
  | succ n ih =>
    rw [List.replicate_succ, put_entries, ih, put_entry_zero, List.append_replicate_replicate]
    congr 1
    omega

theorem put32_zero (big : Bool) : put32 big 0 = List.replicate 4 0 := by
  cases big <;> rfl

/-- A file with one IFD whose last `n` entries are zero is a prefix followed by zero bytes. -/
theorem put_tiff_zero_tail (big : Bool) (qs : List dir_ent_t) (n : Nat) :
    put_tiff big [qs ++ List.replicate n zero_ent]
      = ((if big then [0x4D, 0x4D] else [0x49, 0x49]) ++ put16 big 42 ++ put32 big 8
          ++ put16 big (qs.length + n) ++ put_entries big qs)
        ++ List.replicate (12 * n + 4) 0 := by
  simp only [put_tiff, put_chain, put_ifd, put_entries_append, put_entries_replicate_zero,
    put32_zero, List.length_append, List.length_replicate, List.append_assoc,
    List.append_replicate_replicate]

theorem getD_zero_tail (A : List Byte) (m i : Nat) (h : A.length ≤ i) :
    (A ++ List.replicate m (0 : Byte)).getD i 0 = 0 := by
  rw [List.getD_append_right _ _ _ _ h, List.getD_eq_getElem?_getD, List.getElem?_replicate]
  split_ifs <;> rfl

theorem mem16_append_left (host : Host) (A B : List Byte) (off : Nat) (h : off + 2 ≤ A.length) :
    mem16 host (A ++ B) off = mem16 host A off := by
  unfold mem16
  rw [List.getD_append _ _ _ _ (by omega : off < A.length),
    List.getD_append _ _ _ _ (by omega : off + 1 < A.length)]

theorem mem32_append_left (host : Host) (A B : List Byte) (off : Nat) (h : off + 4 ≤ A.length) :
    mem32 host (A ++ B) off = mem32 host A off := by
  unfold mem32
  rw [List.getD_append _ _ _ _ (by omega : off < A.length),
    List.getD_append _ _ _ _ (by omega : off + 1 < A.length),
    List.getD_append _ _ _ _ (by omega : off + 2 < A.length),
    List.getD_append _ _ _ _ (by omega : off + 3 < A.length)]

theorem mem16_zero_tail (host : Host) (A : List Byte) (m off : Nat) (h : A.length ≤ off) :
    mem16 host (A ++ List.replicate m 0) off = 0 := by
  unfold mem16
  rw [getD_zero_tail _ _ _ h, getD_zero_tail _ _ _ (by omega : A.length ≤ off + 1)]
  cases host <;> rfl

theorem mem32_zero_tail (host : Host) (A : List Byte) (m off : Nat) (h : A.length ≤ off) :
    mem32 host (A ++ List.replicate m 0) off = 0 := by
  unfold mem32
  rw [getD_zero_tail _ _ _ h, getD_zero_tail _ _ _ (by omega : A.length ≤ off + 1),
    getD_zero_tail _ _ _ (by omega : A.length ≤ off + 2),
    getD_zero_tail _ _ _ (by omega : A.length ≤ off + 3)]
  cases host <;> rfl

theorem field16_eq_mem16 (big : Bool) (data : List Byte) (off : Nat) :
    field16 big data off = mem16 (if big then Host.big else Host.little) data off := by
  cases big <;> rfl

theorem field32_eq_mem32 (big : Bool) (data : List Byte) (off : Nat) :
    field32 big data off = mem32 (if big then Host.big else Host.little) data off := by
  cases big <;> rfl

theorem declares_big_append_left (A B : List Byte) (h : 2 ≤ A.length) :
    declares_big (A ++ B) 0 = declares_big A 0 := by
  unfold declares_big
  rw [List.getD_append _ _ _ _ (by omega : 0 < A.length),
    List.getD_append _ _ _ _ (by omega : 0 + 1 < A.length)]

theorem ifd_at_get? (host : Host) (tiff : tiff_t) (data : List Byte) (off i : Nat)
    (h : i < n_entries_at host tiff data off) :
    (ifd_at host tiff data off).entries.get? i = some (dir_ent_at host data (off + 2 + 12 * i)) := by
  simp only [ifd_at, List.get?_eq_getElem?, List.getElem?_map, List.getElem?_range h,
    Option.map_some']

/-! ### The scan on a file whose byte order is not that of the machine -/

/-- The load of a file that holds a chain of IFDs, by the fields of the result. -/
theorem read_tiff_chain_ex (host : Host) (data : List Byte) (o : Nat) (os : List Nat) (fuel : Nat)
    (h8 : 8 ≤ data.length)
    (hm : field16 (declares_big data 0) data 2 = 42)
    (h1 : field32 (declares_big data 0) data 4 = o)
    (hc : chain_written host (declares_big data 0) data (o :: os))
    (hf : os.length + 1 ≤ fuel) :
    ∃ t fp1, read_tiff host fuel (fopen data) = some (Except.ok t, fp1)
      ∧ ORDER_BE t = declares_big data 0
      ∧ t.fname = ""
      ∧ t.ifds = (o :: os).map (ifd_at host (header_at host data 0) data) := by
  obtain ⟨fp1, h⟩ := read_tiff_chain_eq host data o os fuel h8 hm h1 hc hf
  exact ⟨_, fp1, h, ORDER_BE_header_at host data 0, rfl, rfl⟩

/-- C1 fails on the big-endian file with one IFD of 256 entries, the second
of which carries tag 0x9212, loaded on a little-endian machine: the file
loads with all 256 entries, but the scan takes the raw count 0x0001 as
its bound, looks at the first entry only and reports "NOT found". -/
theorem scan_bound_is_raw_count :
    ∃ t fp1, read_tiff Host.little 1 (fopen (put_tiff true [content_256])) = some (Except.ok t, fp1)
      ∧ (∃ d ∈ t.ifds, d.entries.length = 256
          ∧ ∃ e, d.entries.get? 1 = some e ∧ NATIVE2 Host.little t (e.tag : Int) = 0x9212)
      ∧ locate_security_bits Host.little t = some [Line.not_found t.fname] := by
  have hdata : put_tiff true [content_256]
      = ([0x4D, 0x4D, 0, 0x2A, 0, 0, 0, 8, 1, 0,
          0, 0, 0, 0, 0, 0, 0, 0, 0, 0, 0, 0,
          0x92, 0x12, 0, 3, 0, 0, 0, 1, 0, 0, 0, 0] : List Byte)
        ++ List.replicate 3052 0 := by
    rw [content_256, put_tiff_zero_tail]
    rfl
  generalize hA : ([0x4D, 0x4D, 0, 0x2A, 0, 0, 0, 8, 1, 0,
          0, 0, 0, 0, 0, 0, 0, 0, 0, 0, 0, 0,
          0x92, 0x12, 0, 3, 0, 0, 0, 1, 0, 0, 0, 0] : List Byte) = A at hdata
  generalize put_tiff true [content_256] = data at hdata
  have hAl : A.length = 34 := by rw [← hA]; rfl
  have hlen : data.length = 3086 := by
    rw [hdata, List.length_append, List.length_replicate, hAl]
  have hbig : declares_big data 0 = true := by
    rw [hdata, declares_big_append_left _ _ (by omega), ← hA]; rfl
  have hmagic : field16 true data 2 = 42 := by
    rw [field16_eq_mem16, hdata, mem16_append_left _ _ _ _ (by omega), ← hA]; rfl
  have hfirst : field32 true data 4 = 8 := by
    rw [field32_eq_mem32, hdata, mem32_append_left _ _ _ _ (by omega), ← hA]; rfl
  have hcount : field16 true data 8 = 256 := by
    rw [field16_eq_mem16, hdata, mem16_append_left _ _ _ _ (by omega), ← hA]; rfl
  have hnext : field32 true data (8 + 2 + 12 * 256) = 0 := by
    rw [field32_eq_mem32, hdata, mem32_zero_tail _ _ _ _ (by omega)]
  have hraw : mem16 Host.little data 8 = 1 := by
    rw [hdata, mem16_append_left _ _ _ _ (by omega), ← hA]; rfl
  have htag0 : mem16 Host.little data (8 + 2 + 12 * 0) = 0 := by
    rw [hdata, mem16_append_left _ _ _ _ (by omega), ← hA]; rfl
  have htag1 : field16 true data (8 + 2 + 12 * 1) = 0x9212 := by
    rw [field16_eq_mem16, hdata, mem16_append_left _ _ _ _ (by omega), ← hA]; rfl
  have hchain : chain_written Host.little (declares_big data 0) data [8] := by
    rw [hbig]
    refine ⟨⟨?_, Or.inr rfl⟩, ?_⟩
    · rw [hcount, hlen]
    · rw [hcount]; exact hnext
  obtain ⟨t, fp1, hload, hO, hfname, hifds⟩ := read_tiff_chain_ex Host.little data 8 [] 1
    (by omega) (by rw [hbig]; exact hmagic) (by rw [hbig]; exact hfirst) hchain (by simp)
  rw [hbig] at hO
  have hOH : ORDER_BE (header_at Host.little data 0) = true := by
    rw [ORDER_BE_header_at]; exact hbig
  have hn : n_entries_at Host.little (header_at Host.little data 0) data 8 = 256 := by
    rw [n_entries_at_written _ _ _ _ (by rw [hOH, ← hbig]; exact hchain.1), hOH]; exact hcount
  refine ⟨t, fp1, hload, ?_, ?_⟩
  · refine ⟨ifd_at Host.little (header_at Host.little data 0) data 8, by rw [hifds]; simp, ?_, ?_⟩
    · rw [ifd_at_entries_length, hn]
    · refine ⟨_, ifd_at_get? _ _ _ _ 1 (by rw [hn]; omega), ?_⟩
      have := NATIVE2_mem16 Host.little t data (8 + 2 + 12 * 1)
      rw [hO] at this
      simp only [dir_ent_at]
      rw [this]
      exact_mod_cast htag1
  · have hget0 := ifd_at_get? Host.little (header_at Host.little data 0) data 8 0 (by rw [hn]; omega)
    have hN0 : NATIVE2 Host.little t ((0 : Nat) : Int) ≠ 0x9212 := by
      simp only [NATIVE2, hO, if_true]; decide
    have hb : uint32 (ifd_at Host.little (header_at Host.little data 0) data 8).hdr.count = 1 := by
      simp only [ifd_at, hraw]; rfl
    simp only [locate_security_bits, hifds, List.map_cons, List.map_nil, scan_ifds, hb,
      scan_entries, hget0, dir_ent_at, htag0, if_neg hN0]
    rfl

theorem NATIVE2_zero (host : Host) (h : tiff_t) : NATIVE2 host h ((0 : Nat) : Int) = 0 := by
  cases host <;> simp only [NATIVE2] <;> split_ifs <;> rfl

/-- The inner loop on an IFD whose bound is its number of entries and whose
first entry is the only one with the tag. -/
theorem scan_entries_first_only (host : Host) (tiff : tiff_t) (ifd : ifd_t) (e0 : dir_ent_t)
    (hb : uint32 ifd.hdr.count = ifd.entries.length)
    (h0 : ifd.entries.get? 0 = some e0)
    (hm0 : NATIVE2 host tiff (e0.tag : Int) = 0x9212)
    (hrest : ∀ i e, 0 < i → ifd.entries.get? i = some e → NATIVE2 host tiff (e.tag : Int) ≠ 0x9212) :
    scan_entries host tiff ifd (uint32 ifd.hdr.count) 0 = some [e0.type] := by
  rw [hb, scan_entries_in_bounds host tiff ifd _ 0 (by omega), List.drop_zero,
    List.take_of_length_le (Nat.le_refl _)]
  rcases hE : ifd.entries with _ | ⟨a, tl⟩
  · rw [hE] at h0; simp at h0
  · rw [hE] at h0 hrest
    simp only [List.get?_cons_zero, Option.some.injEq] at h0
    subst h0
    have htl : tl.filter (fun e => decide (NATIVE2 host tiff (e.tag : Int) = 0x9212)) = [] := by
      rw [List.filter_eq_nil_iff]
      intro e he
      obtain ⟨j, hj⟩ := List.mem_iff_get?.mp he
      have := hrest (j + 1) e (by omega) (by simpa using hj)
      simpa using this
    simp [List.filter_cons, hm0, htl]

/-- C7 fails on the content of one IFD with 257 entries, the first of which
is (0x9212, 3, 1, 0): on a little-endian machine both the little-endian and
the big-endian file load and are scanned within bounds, and the match is
reported with type 3 for the first and with the byte-swapped type 0x0300 for
the second. -/
theorem scan_reports_raw_type :
    ∃ tl fpl tb fpb,
      read_tiff Host.little 1 (fopen (put_tiff false [content_257])) = some (Except.ok tl, fpl)
      ∧ read_tiff Host.little 1 (fopen (put_tiff true [content_257])) = some (Except.ok tb, fpb)
      ∧ locate_security_bits Host.little tl = some [Line.tag tl.fname 3]
      ∧ locate_security_bits Host.little tb = some [Line.tag tb.fname 0x0300]
      ∧ tl.fname = tb.fname := by
  -- the little-endian file
  have hdl : put_tiff false [content_257]
      = ([0x49, 0x49, 0x2A, 0, 8, 0, 0, 0, 1, 1,
          0x12, 0x92, 3, 0, 1, 0, 0, 0, 0, 0, 0, 0] : List Byte)
        ++ List.replicate 3076 0 := by
    rw [content_257, put_tiff_zero_tail]
    rfl
  generalize hAl : ([0x49, 0x49, 0x2A, 0, 8, 0, 0, 0, 1, 1,
          0x12, 0x92, 3, 0, 1, 0, 0, 0, 0, 0, 0, 0] : List Byte) = Al at hdl
  generalize put_tiff false [content_257] = dl at hdl
  have hAll : Al.length = 22 := by rw [← hAl]; rfl
  have hlenl : dl.length = 3098 := by
    rw [hdl, List.length_append, List.length_replicate, hAll]
  have hbigl : declares_big dl 0 = false := by
    rw [hdl, declares_big_append_left _ _ (by omega), ← hAl]; rfl
  have hmagicl : field16 false dl 2 = 42 := by
    rw [field16_eq_mem16, hdl, mem16_append_left _ _ _ _ (by omega), ← hAl]; rfl
  have hfirstl : field32 false dl 4 = 8 := by
    rw [field32_eq_mem32, hdl, mem32_append_left _ _ _ _ (by omega), ← hAl]; rfl
  have hcountl : field16 false dl 8 = 257 := by
    rw [field16_eq_mem16, hdl, mem16_append_left _ _ _ _ (by omega), ← hAl]; rfl
  have hnextl : field32 false dl (8 + 2 + 12 * 257) = 0 := by
    rw [field32_eq_mem32, hdl, mem32_zero_tail _ _ _ _ (by omega)]
  have hrawl : mem16 Host.little dl 8 = 257 := by
    rw [hdl, mem16_append_left _ _ _ _ (by omega), ← hAl]; rfl
  have htagl : mem16 Host.little dl (8 + 2 + 12 * 0) = 0x9212 := by
    rw [hdl, mem16_append_left _ _ _ _ (by omega), ← hAl]; rfl
  have htypel : mem16 Host.little dl (8 + 2 + 12 * 0 + 2) = 3 := by
    rw [hdl, mem16_append_left _ _ _ _ (by omega), ← hAl]; rfl
  have hchainl : chain_written Host.little (declares_big dl 0) dl [8] := by
    rw [hbigl]
    refine ⟨⟨?_, Or.inl ?_⟩, ?_⟩
    · rw [hcountl, hlenl]
    · rw [hcountl]; omega
    · rw [hcountl]; exact hnextl
  obtain ⟨tl, fpl, hloadl, hOl, hfnamel, hifdsl⟩ := read_tiff_chain_ex Host.little dl 8 [] 1
    (by omega) (by rw [hbigl]; exact hmagicl) (by rw [hbigl]; exact hfirstl) hchainl (by simp)
  rw [hbigl] at hOl
  have hOHl : ORDER_BE (header_at Host.little dl 0) = false := by
    rw [ORDER_BE_header_at]; exact hbigl
  have hnl : n_entries_at Host.little (header_at Host.little dl 0) dl 8 = 257 := by
    rw [n_entries_at_written _ _ _ _ (by rw [hOHl, ← hbigl]; exact hchainl.1), hOHl]; exact hcountl
  -- the big-endian file
  have hdb : put_tiff true [content_257]
      = ([0x4D, 0x4D, 0, 0x2A, 0, 0, 0, 8, 1, 1,
          0x92, 0x12, 0, 3, 0, 0, 0, 1, 0, 0, 0, 0] : List Byte)
        ++ List.replicate 3076 0 := by
    rw [content_257, put_tiff_zero_tail]
    rfl
  generalize hAb : ([0x4D, 0x4D, 0, 0x2A, 0, 0, 0, 8, 1, 1,
          0x92, 0x12, 0, 3, 0, 0, 0, 1, 0, 0, 0, 0] : List Byte) = Ab at hdb
  generalize put_tiff true [content_257] = db at hdb
  have hAbl : Ab.length = 22 := by rw [← hAb]; rfl
  have hlenb : db.length = 3098 := by
    rw [hdb, List.length_append, List.length_replicate, hAbl]
  have hbigb : declares_big db 0 = true := by
    rw [hdb, declares_big_append_left _ _ (by omega), ← hAb]; rfl
  have hmagicb : field16 true db 2 = 42 := by
    rw [field16_eq_mem16, hdb, mem16_append_left _ _ _ _ (by omega), ← hAb]; rfl
  have hfirstb : field32 true db 4 = 8 := by
    rw [field32_eq_mem32, hdb, mem32_append_left _ _ _ _ (by omega), ← hAb]; rfl
  have hcountb : field16 true db 8 = 257 := by
    rw [field16_eq_mem16, hdb, mem16_append_left _ _ _ _ (by omega), ← hAb]; rfl
  have hnextb : field32 true db (8 + 2 + 12 * 257) = 0 := by
    rw [field32_eq_mem32, hdb, mem32_zero_tail _ _ _ _ (by omega)]
  have hrawb : mem16 Host.little db 8 = 257 := by
    rw [hdb, mem16_append_left _ _ _ _ (by omega), ← hAb]; rfl
  have htagb : field16 true db (8 + 2 + 12 * 0) = 0x9212 := by
    rw [field16_eq_mem16, hdb, mem16_append_left _ _ _ _ (by omega), ← hAb]; rfl
  have htypeb : mem16 Host.little db (8 + 2 + 12 * 0 + 2) = 0x0300 := by
    rw [hdb, mem16_append_left _ _ _ _ (by omega), ← hAb]; rfl
  have hchainb : chain_written Host.little (declares_big db 0) db [8] := by
    rw [hbigb]
    refine ⟨⟨?_, Or.inr rfl⟩, ?_⟩
    · rw [hcountb, hlenb]
    · rw [hcountb]; exact hnextb
  obtain ⟨tb, fpb, hloadb, hOb, hfnameb, hifdsb⟩ := read_tiff_chain_ex Host.little db 8 [] 1
    (by omega) (by rw [hbigb]; exact hmagicb) (by rw [hbigb]; exact hfirstb) hchainb (by simp)
  rw [hbigb] at hOb
  have hOHb : ORDER_BE (header_at Host.little db 0) = true := by
    rw [ORDER_BE_header_at]; exact hbigb
  have hnb : n_entries_at Host.little (header_at Host.little db 0) db 8 = 257 := by
    rw [n_entries_at_written _ _ _ _ (by rw [hOHb, ← hbigb]; exact hchainb.1), hOHb]; exact hcountb
  refine ⟨tl, fpl, tb, fpb, hloadl, hloadb, ?_, ?_, by rw [hfnamel, hfnameb]⟩
  · have hscan := scan_entries_first_only Host.little tl
      (ifd_at Host.little (header_at Host.little dl 0) dl 8)
      (dir_ent_at Host.little dl (8 + 2 + 12 * 0))
      (by rw [ifd_at_entries_length, hnl]; simp only [ifd_at, hrawl]; rfl)
      (ifd_at_get? _ _ _ _ 0 (by rw [hnl]; omega))
      (by simp only [dir_ent_at, htagl, NATIVE2, hOl]; rfl)
      (by
        intro i e hi he
        have hlt : i < 257 := by
          have := List.get?_eq_some.mp he
          obtain ⟨h, _⟩ := this
          rw [ifd_at_entries_length, hnl] at h; exact h
        rw [ifd_at_get? _ _ _ _ i (by rw [hnl]; exact hlt)] at he
        simp only [Option.some.injEq] at he
        subst he
        simp only [dir_ent_at]
        rw [hdl, mem16_zero_tail _ _ _ _ (by omega), NATIVE2_zero]
        decide)
    simp only [locate_security_bits, hifdsl, List.map_cons, List.map_nil, scan_ifds, hscan,
      dir_ent_at, htypel]
    rfl
  · have hscan := scan_entries_first_only Host.little tb
      (ifd_at Host.little (header_at Host.little db 0) db 8)
      (dir_ent_at Host.little db (8 + 2 + 12 * 0))
      (by rw [ifd_at_entries_length, hnb]; simp only [ifd_at, hrawb]; rfl)
      (ifd_at_get? _ _ _ _ 0 (by rw [hnb]; omega))
      (by
        have := NATIVE2_mem16 Host.little tb db (8 + 2 + 12 * 0)
        rw [hOb] at this
        simp only [dir_ent_at]
        rw [this]
        exact_mod_cast htagb)
      (by
        intro i e hi he
        have hlt : i < 257 := by
          have := List.get?_eq_some.mp he
          obtain ⟨h, _⟩ := this
          rw [ifd_at_entries_length, hnb] at h; exact h
        rw [ifd_at_get? _ _ _ _ i (by rw [hnb]; exact hlt)] at he
        simp only [Option.some.injEq] at he
        subst he
        simp only [dir_ent_at]
        rw [hdb, mem16_zero_tail _ _ _ _ (by omega), NATIVE2_zero]
        decide)
    simp only [locate_security_bits, hifdsb, List.map_cons, List.map_nil, scan_ifds, hscan,
      dir_ent_at, htypeb]
    rfl

/-! ### IFDs with more than 32767 entries -/

/-- The load ends in an error when the first IFD cannot be read. -/
theorem read_tiff_first_ifd_error (host : Host) (fuel : Nat) (data : List Byte) (e : Err)
    (h8 : 8 ≤ data.length)
    (hm : field16 (declares_big data 0) data 2 = 42)
    (he : (read_ifd host (header_at host data 0) (fopen data)
      (field32 (declares_big data 0) data 4)).1 = Except.error e) :
    ∃ fp1, read_tiff host fuel (fopen data) = some (Except.error e, fp1) := by
  rw [read_tiff_header host fuel (fopen data) (by simpa [fopen] using h8)]
  simp only [fopen] at he ⊢
  rw [if_neg (by rw [universe_header_at, hm]; simp)]
  have hN4 : NATIVE4 host (header_at host data 0) (header_at host data 0).hdr.first_ifd
      = field32 (declares_big data 0) data 4 := by
    have := NATIVE4_mem32 host (header_at host data 0) data (0 + 4)
    rw [ORDER_BE_header_at] at this
    exact this
  rw [hN4]
  rcases hr : read_ifd host (header_at host data 0) { data := data, pos := 0 }
    (field32 (declares_big data 0) data 4) with ⟨r, fp1⟩
  rw [hr] at he
  simp only at he
  subst he
  exact ⟨fp1, rfl⟩

/-- C4 fails on the little-endian file with one IFD of 32768 zero entries,
loaded on a little-endian machine.  The header has byte order `II` and
universe 42, the IFD at `first_ifd` = 8 lies within the file with its
32768 entries and its next offset 0; `read_ifd` takes the count 0x8000 for
-32768, asks for 4294934528 entries and `read_tiff` fails. -/
theorem round_trip_fails_on_large_ifd :
    declares_big (put_tiff false [content_32768]) 0 = false
    ∧ field16 false (put_tiff false [content_32768]) 2 = 42
    ∧ field32 false (put_tiff false [content_32768]) 4 = 8
    ∧ field16 false (put_tiff false [content_32768]) 8 = 32768
    ∧ 8 + 2 + 12 * 32768 + 4 = (put_tiff false [content_32768]).length
    ∧ field32 false (put_tiff false [content_32768]) (8 + 2 + 12 * 32768) = 0
    ∧ ∀ fuel, ∃ fp1, read_tiff Host.little fuel (fopen (put_tiff false [content_32768]))
        = some (Except.error (Err.ifd_entries 4294934528), fp1) := by
  have hd : put_tiff false [content_32768]
      = ([0x49, 0x49, 0x2A, 0, 8, 0, 0, 0, 0, 0x80] : List Byte) ++ List.replicate 393220 0 := by
    rw [content_32768, put_tiff_zero_tail]
    rfl
  generalize hA : ([0x49, 0x49, 0x2A, 0, 8, 0, 0, 0, 0, 0x80] : List Byte) = A at hd
  generalize put_tiff false [content_32768] = data at hd
  have hAl : A.length = 10 := by rw [← hA]; rfl
  have hlen : data.length = 393230 := by
    rw [hd, List.length_append, List.length_replicate, hAl]
  have hbig : declares_big data 0 = false := by
    rw [hd, declares_big_append_left _ _ (by omega), ← hA]; rfl
  have hmagic : field16 false data 2 = 42 := by
    rw [field16_eq_mem16, hd, mem16_append_left _ _ _ _ (by omega), ← hA]; rfl
  have hfirst : field32 false data 4 = 8 := by
    rw [field32_eq_mem32, hd, mem32_append_left _ _ _ _ (by omega), ← hA]; rfl
  have hcount : field16 false data 8 = 32768 := by
    rw [field16_eq_mem16, hd, mem16_append_left _ _ _ _ (by omega), ← hA]; rfl
  have hnext : field32 false data (8 + 2 + 12 * 32768) = 0 := by
    rw [field32_eq_mem32, hd, mem32_zero_tail _ _ _ _ (by omega)]
  refine ⟨hbig, hmagic, hfirst, hcount, by rw [hlen], hnext, ?_⟩
  intro fuel
  have hO : ORDER_BE (header_at Host.little data 0) = false := by
    rw [ORDER_BE_header_at]; exact hbig
  have hn : n_entries_at Host.little (header_at Host.little data 0) data 8 = 4294934528 := by
    rw [n_entries_at_eq, hO, hcount, if_pos ⟨rfl, by omega⟩]
  apply read_tiff_first_ifd_error Host.little fuel data _ (by omega) (by rw [hbig]; exact hmagic)
  rw [hbig, hfirst, read_ifd_fst]
  simp only [fopen, hn, hlen]
  rw [if_neg (by omega), if_pos (by omega)]

/-- The load ends in an error when the first IFD is read and the second cannot be. -/
theorem read_tiff_second_ifd_error (host : Host) (fuel : Nat) (data : List Byte) (e : Err)
    (o o2 : Nat)
    (h8 : 8 ≤ data.length)
    (hm : field16 (declares_big data 0) data 2 = 42)
    (h1 : field32 (declares_big data 0) data 4 = o)
    (hw : ifd_written host (declares_big data 0) data o)
    (hnx : field32 (declares_big data 0) data (o + 2 + 12 * field16 (declares_big data 0) data o) = o2)
    (hne : o2 ≠ 0)
    (he : (read_ifd host (header_at host data 0) (fopen data) o2).1 = Except.error e) :
    ∃ fp1, read_tiff host (fuel + 1) (fopen data) = some (Except.error e, fp1) := by
  have hB := ORDER_BE_header_at host data 0
  rw [← hB] at h1 hw hnx
  rw [read_tiff_header host (fuel + 1) (fopen data) (by simpa [fopen] using h8)]
  simp only [fopen] at he ⊢
  rw [if_neg (by rw [universe_header_at, hm]; simp)]
  have hN4 : NATIVE4 host (header_at host data 0) (header_at host data 0).hdr.first_ifd = o := by
    have := NATIVE4_mem32 host (header_at host data 0) data (0 + 4)
    rw [← h1]
    exact this
  have hn := n_entries_at_written host (header_at host data 0) data o hw
  have hread := read_ifd_ok host (header_at host data 0) { data := data, pos := 0 } o
    (by rw [hn]; exact hw.1)
  have hraw : (ifd_at host (header_at host data 0) data o).next_ifd
      = mem32 host data (o + 2 + 12 * field16 (ORDER_BE (header_at host data 0)) data o) := by
    simp only [ifd_at, hn]
  have hx : (ifd_at host (header_at host data 0) data o).next_ifd ≠ 0 := by
    rw [hraw]
    intro h0
    rw [mem32_eq_zero_iff host (ORDER_BE (header_at host data 0))] at h0
    omega
  have hN4b : NATIVE4 host (header_at host data 0)
      (ifd_at host (header_at host data 0) data o).next_ifd = o2 := by
    rw [hraw, NATIVE4_mem32]
    exact hnx
  rw [hN4, hread]
  simp only
  unfold read_tiff_loop
  rw [if_pos hx, hN4b]
  rcases hr : read_ifd host (header_at host data 0)
    { data := data, pos := o + 2 + 12 * n_entries_at host (header_at host data 0) data o + 4 } o2
    with ⟨r, fp1⟩
  have he2 : (read_ifd host (header_at host data 0)
    { data := data, pos := o + 2 + 12 * n_entries_at host (header_at host data 0) data o + 4 } o2).1
      = Except.error e := he
  rw [hr] at he2
  simp only at he2
  subst he2
  exact ⟨fp1, rfl⟩

/-- A file with an empty IFD followed by an IFD of `n` zero entries. -/
theorem put_tiff_empty_then_zero (big : Bool) (n : Nat) :
    put_tiff big [[], List.replicate n zero_ent]
      = ((if big then [0x4D, 0x4D] else [0x49, 0x49]) ++ put16 big 42 ++ put32 big 8
          ++ put16 big 0 ++ put32 big 14 ++ put16 big n)
        ++ List.replicate (12 * n + 4) 0 := by
  have h0 : put_entries big ([] : List dir_ent_t) = [] := rfl
  simp only [put_tiff, put_chain, put_ifd, h0, put_entries_replicate_zero, put32_zero,
    List.length_nil, List.length_replicate, List.append_assoc, List.append_replicate_replicate,
    List.nil_append, List.append_nil]

/-- C5 fails on the little-endian file with two IFDs, an empty one at offset 8
pointing to offset 14 and one with 32768 zero entries at offset 14 pointing
to 0, loaded on a little-endian machine: both IFDs lie within the file, and
`read_tiff` returns no chain of two IFDs but fails at the second, for
which `read_ifd` asks for 4294934528 entries. -/
theorem chain_load_fails_on_large_ifd :
    field32 false (put_tiff false [[], content_32768]) 4 = 8
    ∧ field16 false (put_tiff false [[], content_32768]) 8 = 0
    ∧ field32 false (put_tiff false [[], content_32768]) (8 + 2 + 12 * 0) = 14
    ∧ field16 false (put_tiff false [[], content_32768]) 14 = 32768
    ∧ field32 false (put_tiff false [[], content_32768]) (14 + 2 + 12 * 32768) = 0
    ∧ 14 + 2 + 12 * 32768 + 4 = (put_tiff false [[], content_32768]).length
    ∧ ∀ fuel, ∃ fp1, read_tiff Host.little (fuel + 1) (fopen (put_tiff false [[], content_32768]))
        = some (Except.error (Err.ifd_entries 4294934528), fp1) := by
  have hd : put_tiff false [[], content_32768]
      = ([0x49, 0x49, 0x2A, 0, 8, 0, 0, 0, 0, 0, 14, 0, 0, 0, 0, 0x80] : List Byte)
        ++ List.replicate 393220 0 := by
    rw [content_32768, List.nil_append, put_tiff_empty_then_zero]
    rfl
  generalize hA : ([0x49, 0x49, 0x2A, 0, 8, 0, 0, 0, 0, 0, 14, 0, 0, 0, 0, 0x80] : List Byte) = A at hd
  generalize put_tiff false [[], content_32768] = data at hd
  have hAl : A.length = 16 := by rw [← hA]; rfl
  have hlen : data.length = 393236 := by
    rw [hd, List.length_append, List.length_replicate, hAl]
  have hbig : declares_big data 0 = false := by
    rw [hd, declares_big_append_left _ _ (by omega), ← hA]; rfl
  have hmagic : field16 false data 2 = 42 := by
    rw [field16_eq_mem16, hd, mem16_append_left _ _ _ _ (by omega), ← hA]; rfl
  have hfirst : field32 false data 4 = 8 := by
    rw [field32_eq_mem32, hd, mem32_append_left _ _ _ _ (by omega), ← hA]; rfl
  have hcount1 : field16 false data 8 = 0 := by
    rw [field16_eq_mem16, hd, mem16_append_left _ _ _ _ (by omega), ← hA]; rfl
  have hnext1 : field32 false data (8 + 2 + 12 * 0) = 14 := by
    rw [field32_eq_mem32, hd, mem32_append_left _ _ _ _ (by omega), ← hA]; rfl
  have hcount2 : field16 false data 14 = 32768 := by
    rw [field16_eq_mem16, hd, mem16_append_left _ _ _ _ (by omega), ← hA]; rfl
  have hnext2 : field32 false data (14 + 2 + 12 * 32768) = 0 := by
    rw [field32_eq_mem32, hd, mem32_zero_tail _ _ _ _ (by omega)]
  refine ⟨hfirst, hcount1, hnext1, hcount2, hnext2, by rw [hlen], ?_⟩
  intro fuel
  have hO : ORDER_BE (header_at Host.little data 0) = false := by
    rw [ORDER_BE_header_at]; exact hbig
  have hn : n_entries_at Host.little (header_at Host.little data 0) data 14 = 4294934528 := by
    rw [n_entries_at_eq, hO, hcount2, if_pos ⟨rfl, by omega⟩]
  apply read_tiff_second_ifd_error Host.little fuel data _ 8 14 (by omega)
    (by rw [hbig]; exact hmagic) (by rw [hbig]; exact hfirst)
  · rw [hbig]
    exact ⟨by rw [hcount1, hlen]; omega, Or.inl (by rw [hcount1]; omega)⟩
  · rw [hbig, hcount1]; exact hnext1
  · omega
  · rw [read_ifd_fst]
    simp only [fopen, hn, hlen]
    rw [if_neg (by omega), if_pos (by omega)]

/-! ### The bound of the scan and the count that `read_ifd` asks for -/

/-- C13 fails on `sample_be` loaded on a little-endian machine: the IFD is
loaded with 1 entry, the bound of the scan loop is the raw count 256, and
the scan reads `entries[1]` outside the array. -/
theorem scan_reads_out_of_bounds :
    read_tiff Host.little 1 (fopen sample_be)
      = some (Except.ok
          { hdr := { byte_order := 0x4D4D, universe_ := 0x2A00, first_ifd := 0x08000000 },
            fname := "",
            ifds := [{ hdr := { count := 256 },
                       entries := [{ tag := 0x1292, type := 0x0300, count := 0x01000000, offset := 0 }],
                       file_offset := 8, next_ifd := 0 }] },
          { data := sample_be, pos := 26 })
    ∧ uint32 (256 : Int) = 256
    ∧ scan_entries Host.little
        { hdr := { byte_order := 0x4D4D, universe_ := 0x2A00, first_ifd := 0x08000000 },
          fname := "", ifds := [] }
        { hdr := { count := 256 },
          entries := [{ tag := 0x1292, type := 0x0300, count := 0x01000000, offset := 0 }],
          file_offset := 8, next_ifd := 0 } 256 0 = none
    ∧ locate_security_bits Host.little
        { hdr := { byte_order := 0x4D4D, universe_ := 0x2A00, first_ifd := 0x08000000 },
          fname := "",
          ifds := [{ hdr := { count := 256 },
                     entries := [{ tag := 0x1292, type := 0x0300, count := 0x01000000, offset := 0 }],
                     file_offset := 8, next_ifd := 0 }] } = none := by
  refine ⟨rfl, rfl, rfl, rfl⟩

/-- C14 fails for the count 32768 in a file in the byte order of the
machine: on a little-endian machine the count bytes `00 80` of a little-endian
file make `read_ifd` ask for 4294934528 entries, while the same count
written big-endian (`80 00`) makes it ask for 32768. -/
theorem n_entries_sign_extended :
    n_entries_at Host.little (sample_tiff 0x4949) [0x00, 0x80] 0 = 4294934528
    ∧ n_entries_at Host.little (sample_tiff 0x4D4D) [0x80, 0x00] 0 = 32768
    ∧ (read_ifd Host.little (sample_tiff 0x4949) (fopen [0x00, 0x80]) 0).1
        = Except.error (Err.ifd_entries 4294934528)
    ∧ (read_ifd Host.little (sample_tiff 0x4D4D) (fopen [0x80, 0x00]) 0).1
        = Except.error (Err.ifd_entries 32768) := by
  refine ⟨rfl, rfl, ?_, ?_⟩
  · rw [read_ifd_fst]; rfl
  · rw [read_ifd_fst]; rfl

/-! ### The exit status -/

theorem loop_step_some (host : Host) (tiff : tiff_t) (data : List Byte) (o o2 : Nat)
    (h : loop_step host tiff data o = some o2) :
    o + 2 + 12 * n_entries_at host tiff data o + 4 ≤ data.length
    ∧ (ifd_at host tiff data o).next_ifd ≠ 0
    ∧ NATIVE4 host tiff (ifd_at host tiff data o).next_ifd = o2 := by
  unfold loop_step at h
  split_ifs at h with h1 h2
  simp only [Option.some.injEq] at h
  exact ⟨by omega, h2, h⟩

/-- The loop ends when the chain of next offsets ends, given fuel for every IFD of the chain. -/
theorem read_tiff_loop_terminates (host : Host) (tiff : tiff_t) (data : List Byte) :
    ∀ (k o fuel : Nat) (fp : FILE), fp.data = data →
      o + 2 + 12 * n_entries_at host tiff data o + 4 ≤ data.length →
      chain_ends host tiff data k o = true → k ≤ fuel →
      ∃ r, read_tiff_loop host tiff fuel fp (ifd_at host tiff data o) = some r := by
  intro k
  induction k with
  | zero => intro o fuel fp _ _ h; simp [chain_ends] at h
  | succ k ih =>
    intro o fuel fp hfp hread hend hfuel
    obtain ⟨fuel, rfl⟩ : ∃ f, fuel = f + 1 := ⟨fuel - 1, by omega⟩
    unfold read_tiff_loop
    by_cases hz : (ifd_at host tiff data o).next_ifd = 0
    · rw [if_neg (by simp [hz])]
      exact ⟨_, rfl⟩
    · rw [if_pos hz]
      have hstep : loop_step host tiff data o
          = some (NATIVE4 host tiff (ifd_at host tiff data o).next_ifd) := by
        unfold loop_step
        rw [if_neg (by omega), if_neg hz]
      unfold chain_ends at hend
      rw [hstep] at hend
      simp only at hend
      rcases hi : read_ifd host tiff fp (NATIVE4 host tiff (ifd_at host tiff data o).next_ifd)
        with ⟨r, fp2⟩
      cases r with
      | error e => exact ⟨_, rfl⟩
      | ok nxt =>
        have h1 : (read_ifd host tiff fp
            (NATIVE4 host tiff (ifd_at host tiff data o).next_ifd)).1 = Except.ok nxt := by
          rw [hi]
        obtain ⟨hn, hr2⟩ := read_ifd_ok_inv host tiff fp _ nxt h1
        rw [hfp] at hn hr2
        have hfp2 : fp2.data = data := by
          have := read_ifd_data host tiff fp (NATIVE4 host tiff (ifd_at host tiff data o).next_ifd)
          rw [hi] at this
          rw [← hfp]; exact this
        obtain ⟨r2, hr⟩ := ih _ fuel fp2 hfp2 hr2 hend (by omega)
        simp only
        rw [hn, hr]
        obtain ⟨res, fp3⟩ := r2
        cases res with
        | error e => exact ⟨_, rfl⟩
        | ok rest => exact ⟨_, rfl⟩

/-- The loop never ends when the chain of next offsets does not. -/
theorem read_tiff_loop_diverges (host : Host) (tiff : tiff_t) (data : List Byte) :
    ∀ (fuel o : Nat) (fp : FILE), fp.data = data →
      o + 2 + 12 * n_entries_at host tiff data o + 4 ≤ data.length →
      (∀ k, chain_ends host tiff data k o = false) →
      read_tiff_loop host tiff fuel fp (ifd_at host tiff data o) = none := by
  intro fuel
  induction fuel with
  | zero => intro o fp _ _ _; rfl
  | succ fuel ih =>
    intro o fp hfp hread hnever
    have h1 := hnever 1
    unfold chain_ends at h1
    rcases hs : loop_step host tiff data o with _ | o2
    · rw [hs] at h1; simp at h1
    · obtain ⟨_, hz, hN⟩ := loop_step_some host tiff data o o2 hs
      have hnever2 : ∀ k, chain_ends host tiff data k o2 = false := by
        intro k
        have := hnever (k + 1)
        unfold chain_ends at this
        rw [hs] at this
        exact this
      have h2 := hnever2 1
      unfold chain_ends at h2
      have hread2 : o2 + 2 + 12 * n_entries_at host tiff data o2 + 4 ≤ data.length := by
        rcases hs2 : loop_step host tiff data o2 with _ | o3
        · rw [hs2] at h2; simp at h2
        · exact (loop_step_some host tiff data o2 o3 hs2).1
      unfold read_tiff_loop
      rw [if_pos hz, hN, read_ifd_ok host tiff fp o2 (by rw [hfp]; exact hread2)]
      simp only
      rw [hfp, ih o2 _ rfl hread2 hnever2]

theorem sample_cyclic_never_ends (host : Host) :
    ∀ k, chain_ends host (header_at host sample_cyclic 0) sample_cyclic k 8 = false := by
  have hs : loop_step host (header_at host sample_cyclic 0) sample_cyclic 8 = some 8 := by
    cases host <;> rfl
  intro k
  induction k with
  | zero => rfl
  | succ k ih =>
    unfold chain_ends
    rw [hs]
    exact ih

/-- With memory to spare the load of `sample_cyclic` never ends. -/
theorem sample_cyclic_diverges (host : Host) (fuel : Nat) :
    read_tiff host fuel (fopen sample_cyclic) = none := by
  rw [read_tiff_header host fuel (fopen sample_cyclic) (by decide)]
  simp only [fopen]
  have hm : ¬ NATIVE2 host (header_at host sample_cyclic 0)
      ((header_at host sample_cyclic 0).hdr.universe_ : Int) ≠ 42 := by
    rw [universe_header_at]; decide
  have hN : NATIVE4 host (header_at host sample_cyclic 0)
      (header_at host sample_cyclic 0).hdr.first_ifd = 8 := by
    cases host <;> rfl
  have hread : 8 + 2 + 12 * n_entries_at host (header_at host sample_cyclic 0) sample_cyclic 8 + 4
      ≤ sample_cyclic.length := by
    cases host <;> decide
  rw [if_neg hm, hN, read_ifd_ok host _ { data := sample_cyclic, pos := 0 } 8 hread]
  simp only
  rw [read_tiff_loop_diverges host _ sample_cyclic fuel 8 _ rfl hread
    (sample_cyclic_never_ends host)]

/-- With memory to spare the load ends when the chain of next offsets from
the header's `first_ifd` ends within `k` IFDs, given fuel `k` or more. -/
theorem read_tiff_terminates (host : Host) (fp : FILE) (k fuel : Nat)
    (hend : chain_ends host (header_at host fp.data fp.pos) fp.data k
      (NATIVE4 host (header_at host fp.data fp.pos)
        (header_at host fp.data fp.pos).hdr.first_ifd) = true)
    (hfuel : k ≤ fuel) : ∃ r, read_tiff host fuel fp = some r := by
  by_cases h8 : fp.pos + 8 ≤ fp.data.length
  · rw [read_tiff_header host fuel fp h8]
    generalize header_at host fp.data fp.pos = tiff at hend ⊢
    split_ifs with hm
    · exact ⟨_, rfl⟩
    · rcases hi : read_ifd host tiff fp (NATIVE4 host tiff tiff.hdr.first_ifd) with ⟨r, fp2⟩
      cases r with
      | error e => exact ⟨_, rfl⟩
      | ok ifd =>
        have h1 : (read_ifd host tiff fp (NATIVE4 host tiff tiff.hdr.first_ifd)).1
            = Except.ok ifd := by rw [hi]
        obtain ⟨hn, hr2⟩ := read_ifd_ok_inv host tiff fp _ ifd h1
        have hfp2 : fp2.data = fp.data := by
          have := read_ifd_data host tiff fp (NATIVE4 host tiff tiff.hdr.first_ifd)
          rw [hi] at this; exact this
        obtain ⟨r2, hr⟩ := read_tiff_loop_terminates host tiff fp.data k _ fuel fp2 hfp2 hr2
          hend hfuel
        simp only
        rw [hn, hr]
        obtain ⟨res, fp3⟩ := r2
        cases res with
        | error e => exact ⟨_, rfl⟩
        | ok rest => exact ⟨_, rfl⟩
  · obtain ⟨fp1, h⟩ := read_tiff_short host fuel fp (by omega)
    exact ⟨_, h⟩

/-! ### Errors of the IFD reads, and the byte order marker -/

theorem read_ifd_error_kind (host : Host) (tiff : tiff_t) (fp fp1 : FILE) (o : Nat) (e : Err)
    (h : read_ifd host tiff fp o = (Except.error e, fp1)) :
    e ≠ Err.invalid_magic ∧ e ≠ Err.tiff_header := by
  have h1 : (read_ifd host tiff fp o).1 = Except.error e := by rw [h]
  rw [read_ifd_fst] at h1
  split_ifs at h1 <;> simp only [Except.error.injEq] at h1 <;> subst h1 <;> simp

theorem read_tiff_loop_error_kind (host : Host) (tiff : tiff_t) :
    ∀ (fuel : Nat) (fp fp1 : FILE) (ifd : ifd_t) (e : Err),
      read_tiff_loop host tiff fuel fp ifd = some (Except.error e, fp1) →
      e ≠ Err.invalid_magic ∧ e ≠ Err.tiff_header := by
  intro fuel
  induction fuel with
  | zero => intro fp fp1 ifd e h; simp [read_tiff_loop] at h
  | succ fuel ih =>
    intro fp fp1 ifd e h
    unfold read_tiff_loop at h
    split_ifs at h with hz
    · rcases hi : read_ifd host tiff fp (NATIVE4 host tiff ifd.next_ifd) with ⟨r, fp2⟩
      rw [hi] at h
      cases r with
      | error e2 =>
        simp only [Option.some.injEq, Prod.mk.injEq, Except.error.injEq] at h
        rw [← h.1]
        exact read_ifd_error_kind host tiff fp fp2 _ e2 hi
      | ok nxt =>
        simp only at h
        rcases hl : read_tiff_loop host tiff fuel fp2 nxt with _ | ⟨r2, fp3⟩
        · rw [hl] at h; simp at h
        · rw [hl] at h
          cases r2 with
          | error e2 =>
            simp only [Option.some.injEq, Prod.mk.injEq, Except.error.injEq] at h
            rw [← h.1]
            exact ih fp2 fp3 nxt e2 hl
          | ok rest => simp at h
    · simp at h

/-- With the 8 header bytes present, `read_tiff` reports an invalid magic
number exactly when the normalized universe is not 42, and never a short header. -/
theorem read_tiff_header_errors (host : Host) (fuel : Nat) (fp : FILE)
    (h8 : fp.pos + 8 ≤ fp.data.length) :
    ((∃ fp1, read_tiff host fuel fp = some (Except.error Err.invalid_magic, fp1))
      ↔ field16 (declares_big fp.data fp.pos) fp.data (fp.pos + 2) ≠ 42)
    ∧ ∀ fp1, read_tiff host fuel fp ≠ some (Except.error Err.tiff_header, fp1) := by
  have hu := universe_header_at host fp.data fp.pos
  rw [read_tiff_header host fuel fp h8]
  by_cases hm : field16 (declares_big fp.data fp.pos) fp.data (fp.pos + 2) = 42
  · have hN : ¬ NATIVE2 host (header_at host fp.data fp.pos)
        ((header_at host fp.data fp.pos).hdr.universe_ : Int) ≠ 42 := by
      rw [hu, hm]; simp
    rw [if_neg hN]
    generalize header_at host fp.data fp.pos = tiff
    have key : ∀ e fp1,
        (match read_ifd host tiff fp (NATIVE4 host tiff tiff.hdr.first_ifd) with
          | (Except.error e, fp1) => some (Except.error e, fp1)
          | (Except.ok ifd, fp1) =>
            match read_tiff_loop host tiff fuel fp1 ifd with
            | none => none
            | some (Except.error e, fp2) => some (Except.error e, fp2)
            | some (Except.ok chain, fp2) =>
              some ((Except.ok { tiff with ifds := chain } : Except Err tiff_t), fp2))
          = some (Except.error e, fp1) →
        e ≠ Err.invalid_magic ∧ e ≠ Err.tiff_header := by
      intro e fp1 h
      rcases hi : read_ifd host tiff fp (NATIVE4 host tiff tiff.hdr.first_ifd) with ⟨r, fp2⟩
      rw [hi] at h
      cases r with
      | error e2 =>
        simp only [Option.some.injEq, Prod.mk.injEq, Except.error.injEq] at h
        rw [← h.1]
        exact read_ifd_error_kind host tiff fp fp2 _ e2 hi
      | ok ifd =>
        simp only at h
        rcases hl : read_tiff_loop host tiff fuel fp2 ifd with _ | ⟨r2, fp3⟩
        · rw [hl] at h; simp at h
        · rw [hl] at h
          cases r2 with
          | error e2 =>
            simp only [Option.some.injEq, Prod.mk.injEq, Except.error.injEq] at h
            rw [← h.1]
            exact read_tiff_loop_error_kind host tiff fuel fp2 fp3 ifd e2 hl
          | ok rest => simp at h
    constructor
    · constructor
      · rintro ⟨fp1, h⟩
        exact absurd rfl (key _ fp1 h).1
      · intro h; exact absurd hm h
    · intro fp1 h
      exact absurd rfl (key _ fp1 h).2
  · have hN : NATIVE2 host (header_at host fp.data fp.pos)
        ((header_at host fp.data fp.pos).hdr.universe_ : Int) ≠ 42 := by
      rw [hu]; intro hc; exact hm (by exact_mod_cast hc)
    rw [if_pos hN]
    constructor
    · exact ⟨fun _ => hm, fun _ => ⟨_, rfl⟩⟩
    · intro fp1 h; simp at h

/-- C16. The header read at the start of the stream makes `ORDER_BE` true
exactly when its `byte_order` is 0x4D4D, that is when the first two bytes
are `4D 4D`; with any other marker `NATIVE2` and `NATIVE4` give the
little-endian reading of every field, on either machine.  The universe
check is the only validation of the header: with the 8 header bytes present
`read_tiff` reports an invalid magic number exactly when the universe, read
in the order so determined, is not 42, and never a short header; so a
header whose marker is not 0x4D4D and whose universe bytes are `2A 00`
passes. -/
theorem byte_order_marker (host : Host) (fuel : Nat) (fp : FILE) (off : Nat)
    (h8 : fp.pos + 8 ≤ fp.data.length) :
    (ORDER_BE (header_at host fp.data fp.pos) = true
        ↔ (header_at host fp.data fp.pos).hdr.byte_order = 0x4D4D)
    ∧ ((header_at host fp.data fp.pos).hdr.byte_order = 0x4D4D
        ↔ (fp.data.getD fp.pos 0).val = 0x4D ∧ (fp.data.getD (fp.pos + 1) 0).val = 0x4D)
    ∧ ((header_at host fp.data fp.pos).hdr.byte_order ≠ 0x4D4D →
        NATIVE2 host (header_at host fp.data fp.pos) ((mem16 host fp.data off : Nat) : Int)
            = ((le16 fp.data off : Nat) : Int)
        ∧ NATIVE4 host (header_at host fp.data fp.pos) (mem32 host fp.data off)
            = le32 fp.data off)
    ∧ ((header_at host fp.data fp.pos).hdr.byte_order = 0x4D4D →
        NATIVE2 host (header_at host fp.data fp.pos) ((mem16 host fp.data off : Nat) : Int)
            = ((be16 fp.data off : Nat) : Int)
        ∧ NATIVE4 host (header_at host fp.data fp.pos) (mem32 host fp.data off)
            = be32 fp.data off)
    ∧ ((∃ fp1, read_tiff host fuel fp = some (Except.error Err.invalid_magic, fp1))
        ↔ field16 (declares_big fp.data fp.pos) fp.data (fp.pos + 2) ≠ 42)
    ∧ (∀ fp1, read_tiff host fuel fp ≠ some (Except.error Err.tiff_header, fp1))
    ∧ ((header_at host fp.data fp.pos).hdr.byte_order ≠ 0x4D4D →
        (fp.data.getD (fp.pos + 2) 0).val = 0x2A → (fp.data.getD (fp.pos + 3) 0).val = 0 →
        ∀ fp1, read_tiff host fuel fp ≠ some (Except.error Err.invalid_magic, fp1)) := by
  have hO := ORDER_BE_iff (header_at host fp.data fp.pos)
  have hD := ORDER_BE_header_at host fp.data fp.pos
  obtain ⟨hmag, hshort⟩ := read_tiff_header_errors host fuel fp h8
  refine ⟨hO, ?_, ?_, ?_, hmag, hshort, ?_⟩
  · rw [← hO, hD]
    simp [declares_big]
  · intro hne
    have hf : ORDER_BE (header_at host fp.data fp.pos) = false := by
      cases hb : ORDER_BE (header_at host fp.data fp.pos)
      · rfl
      · exact absurd (hO.mp hb) hne
    rw [NATIVE2_mem16, NATIVE4_mem32, hf]
    exact ⟨rfl, rfl⟩
  · intro he
    have ht : ORDER_BE (header_at host fp.data fp.pos) = true := hO.mpr he
    rw [NATIVE2_mem16, NATIVE4_mem32, ht]
    exact ⟨rfl, rfl⟩
  · intro hne h2 h3 fp1 h
    have hf : declares_big fp.data fp.pos = false := by
      rw [← hD]
      cases hb : ORDER_BE (header_at host fp.data fp.pos)
      · rfl
      · exact absurd (hO.mp hb) hne
    have hbad := hmag.mp ⟨fp1, h⟩
    apply hbad
    rw [hf]
    simp only [field16, le16, Bool.false_eq_true, if_false]
    have e3 : fp.pos + 2 + 1 = fp.pos + 3 := by omega
    rw [e3, h2, h3]

/-- C16, an instance: a header with the marker bytes `00 00` and the universe
bytes `2A 00`, followed by an empty IFD, on a little-endian machine: the
universe is read little-endian as 42 and the load does not end with an
invalid magic number. -/
theorem byte_order_marker_witness :
    (NATIVE2 Host.little (header_at Host.little [0, 0, 0x2A, 0, 8, 0, 0, 0, 0, 0, 0, 0, 0, 0] 0)
        ((mem16 Host.little [0, 0, 0x2A, 0, 8, 0, 0, 0, 0, 0, 0, 0, 0, 0] 2 : Nat) : Int)
          = ((le16 [0, 0, 0x2A, 0, 8, 0, 0, 0, 0, 0, 0, 0, 0, 0] 2 : Nat) : Int)
      ∧ NATIVE4 Host.little (header_at Host.little [0, 0, 0x2A, 0, 8, 0, 0, 0, 0, 0, 0, 0, 0, 0] 0)
        (mem32 Host.little [0, 0, 0x2A, 0, 8, 0, 0, 0, 0, 0, 0, 0, 0, 0] 2)
          = le32 [0, 0, 0x2A, 0, 8, 0, 0, 0, 0, 0, 0, 0, 0, 0] 2)
    ∧ read_tiff Host.little 1 (fopen [0, 0, 0x2A, 0, 8, 0, 0, 0, 0, 0, 0, 0, 0, 0])
        ≠ some (Except.error Err.invalid_magic,
            { data := [0, 0, 0x2A, 0, 8, 0, 0, 0, 0, 0, 0, 0, 0, 0], pos := 8 }) :=
  ⟨(byte_order_marker Host.little 1 (fopen [0, 0, 0x2A, 0, 8, 0, 0, 0, 0, 0, 0, 0, 0, 0]) 2
      (by decide)).2.2.1 (by decide),
   (byte_order_marker Host.little 1 (fopen [0, 0, 0x2A, 0, 8, 0, 0, 0, 0, 0, 0, 0, 0, 0]) 2
      (by decide)).2.2.2.2.2.2 (by decide) (by decide) (by decide)
      { data := [0, 0, 0x2A, 0, 8, 0, 0, 0, 0, 0, 0, 0, 0, 0], pos := 8 }⟩

/-! ### Involution of the normalizers -/

theorem bswap_16_bytes (b0 b1 : Nat) (h0 : b0 < 256) (h1 : b1 < 256) :
    bswap_16 (b0 + 256 * b1) = b1 + 256 * b0 := by
  unfold bswap_16; omega

theorem bswap_32_bytes (b0 b1 b2 b3 : Nat) (h0 : b0 < 256) (h1 : b1 < 256) (h2 : b2 < 256)
    (h3 : b3 < 256) :
    bswap_32 (b0 + 256 * b1 + 65536 * b2 + 16777216 * b3)
      = b3 + 256 * b2 + 65536 * b1 + 16777216 * b0 := by
  unfold bswap_32; omega

theorem bswap_16_bswap_16 (x : Nat) (h : x < 65536) : bswap_16 (bswap_16 x) = x := by
  have hx : x = x % 256 + 256 * (x / 256) := by omega
  rw [hx, bswap_16_bytes _ _ (by omega) (by omega), bswap_16_bytes _ _ (by omega) (by omega)]

theorem bswap_32_bswap_32 (x : Nat) (h : x < 4294967296) : bswap_32 (bswap_32 x) = x := by
  have hx : x = x % 256 + 256 * (x / 256 % 256) + 65536 * (x / 65536 % 256)
      + 16777216 * (x / 16777216) := by omega
  rw [hx, bswap_32_bytes _ _ _ _ (by omega) (by omega) (by omega) (by omega),
    bswap_32_bytes _ _ _ _ (by omega) (by omega) (by omega) (by omega)]

theorem bswap_32_lt (x : Nat) : bswap_32 x < 4294967296 := by
  unfold bswap_32; omega

theorem bswap_32_eq_zero (x : Nat) (h : x < 4294967296) : bswap_32 x = 0 ↔ x = 0 := by
  unfold bswap_32; omega

theorem NATIVE2_nat (host : Host) (h : tiff_t) (v : Nat) (hv : v < 65536) :
    NATIVE2 host h (v : Int) = (v : Int) ∨ NATIVE2 host h (v : Int) = ((bswap_16 v : Nat) : Int) := by
  cases host <;> simp only [NATIVE2, htobe16, le16toh, uint16_cast v hv] <;> split_ifs <;> simp

theorem NATIVE2_involutive (host : Host) (h : tiff_t) (v : Nat) (hv : v < 65536) :
    NATIVE2 host h (NATIVE2 host h (v : Int)) = (v : Int) := by
  have hb := bswap_16_lt v
  cases host <;> simp only [NATIVE2, htobe16, le16toh] <;> split_ifs <;>
    simp only [uint16_cast v hv, uint16_cast _ hb, bswap_16_bswap_16 v hv]

theorem NATIVE4_involutive (host : Host) (h : tiff_t) (v : Nat) (hv : v < 4294967296) :
    NATIVE4 host h (NATIVE4 host h v) = v := by
  cases host <;> simp only [NATIVE4, htobe32, le32toh] <;> split_ifs <;>
    simp only [bswap_32_bswap_32 v hv]

theorem NATIVE4_lt (host : Host) (h : tiff_t) (v : Nat) (hv : v < 4294967296) :
    NATIVE4 host h v < 4294967296 := by
  have hb := bswap_32_lt v
  cases host <;> simp only [NATIVE4, htobe32, le32toh] <;> split_ifs <;> assumption

theorem NATIVE2_range (host : Host) (h : tiff_t) (v : Nat) (hv : v < 65536) :
    0 ≤ NATIVE2 host h (v : Int) ∧ NATIVE2 host h (v : Int) < 65536 := by
  have hb := bswap_16_lt v
  rcases NATIVE2_nat host h v hv with e | e <;> rw [e] <;> omega

/-- C17. For a fixed header, `NATIVE2` is an involution on the unsigned
16-bit values and `NATIVE4` on the unsigned 32-bit values; both map their
range into itself, are injective and onto there, and `NATIVE4` gives 0 for
0 only. -/
theorem native_normalizers_involutive (host : Host) (h : tiff_t) (v w : Nat)
    (hv : v < 65536) (hw : w < 4294967296) :
    NATIVE2 host h (NATIVE2 host h (v : Int)) = (v : Int)
    ∧ NATIVE4 host h (NATIVE4 host h w) = w
    ∧ (0 ≤ NATIVE2 host h (v : Int) ∧ NATIVE2 host h (v : Int) < 65536)
    ∧ NATIVE4 host h w < 4294967296
    ∧ (∀ v2 : Nat, v2 < 65536 → NATIVE2 host h (v : Int) = NATIVE2 host h (v2 : Int) → v = v2)
    ∧ (∀ w2 : Nat, w2 < 4294967296 → NATIVE4 host h w = NATIVE4 host h w2 → w = w2)
    ∧ (∃ v2 : Nat, v2 < 65536 ∧ NATIVE2 host h (v2 : Int) = (v : Int))
    ∧ (∃ w2 : Nat, w2 < 4294967296 ∧ NATIVE4 host h w2 = w)
    ∧ (NATIVE4 host h w = 0 ↔ w = 0) := by
  refine ⟨NATIVE2_involutive host h v hv, NATIVE4_involutive host h w hw,
    NATIVE2_range host h v hv, NATIVE4_lt host h w hw, ?_, ?_, ?_, ?_, ?_⟩
  · intro v2 hv2 e
    have := congrArg (NATIVE2 host h) e
    rw [NATIVE2_involutive host h v hv, NATIVE2_involutive host h v2 hv2] at this
    exact_mod_cast this
  · intro w2 hw2 e
    have := congrArg (NATIVE4 host h) e
    rw [NATIVE4_involutive host h w hw, NATIVE4_involutive host h w2 hw2] at this
    exact this
  · obtain ⟨h0, h1⟩ := NATIVE2_range host h v hv
    refine ⟨(NATIVE2 host h (v : Int)).toNat, by omega, ?_⟩
    rw [Int.toNat_of_nonneg h0]
    exact NATIVE2_involutive host h v hv
  · exact ⟨NATIVE4 host h w, NATIVE4_lt host h w hw, NATIVE4_involutive host h w hw⟩
  · have hz := bswap_32_eq_zero w hw
    cases host <;> simp only [NATIVE4, htobe32, le32toh] <;> split_ifs <;>
      first | exact hz | exact Iff.rfl

/-- C17, an instance: the tag 0x9212 and the offset 8 under a big-endian
header on a little-endian machine. -/
theorem native_normalizers_involutive_witness :
    NATIVE2 Host.little (sample_tiff 0x4D4D) (NATIVE2 Host.little (sample_tiff 0x4D4D) ((0x9212 : Nat) : Int))
      = ((0x9212 : Nat) : Int)
    ∧ NATIVE4 Host.little (sample_tiff 0x4D4D) (NATIVE4 Host.little (sample_tiff 0x4D4D) 8) = 8 :=
  ⟨(native_normalizers_involutive Host.little (sample_tiff 0x4D4D) 0x9212 8 (by decide) (by decide)).1,
   (native_normalizers_involutive Host.little (sample_tiff 0x4D4D) 0x9212 8 (by decide) (by decide)).2.1⟩

/-! ### The list of TIFFs -/

theorem main_scan_append (host : Host) (a b : List tiff_t) :
    main_scan host (a ++ b)
      = match main_scan host a, main_scan host b with
        | some x, some y => some (x ++ y)
        | _, _ => none := by
  induction a with
  | nil => simp only [List.nil_append, main_scan]; cases main_scan host b <;> simp
  | cons t rest ih =>
    simp only [List.cons_append, main_scan]
    have ih2 : main_scan host (List.append rest b)
        = match main_scan host rest, main_scan host b with
          | some x, some y => some (x ++ y)
          | _, _ => none := ih
    rw [ih2]
    cases locate_security_bits host t <;> cases main_scan host rest <;>
      cases main_scan host b <;> simp

/-! ### The heap: `read_ifd_mem` and `read_tiff_mem` against `read_ifd` and `read_tiff` -/

theorem calloc_some (nmemb size avail : Nat) (h : nmemb * size ≤ avail) :
    calloc nmemb size avail = some (avail - nmemb * size) := by
  unfold calloc; rw [if_pos h]

theorem calloc_none (nmemb size avail : Nat) (h : avail < nmemb * size) :
    calloc nmemb size avail = none := by
  unfold calloc; rw [if_neg (by omega)]

/-- What `read_ifd_mem` returns, by the heap left: the allocation failures, and
else what `read_ifd` returns. -/
theorem read_ifd_mem_eq (host : Host) (tiff : tiff_t) (avail : Nat) (fp : FILE) (off : Nat) :
    read_ifd_mem host tiff avail fp off =
      if avail < 32 then (Except.error Err.no_memory_ifd, fp, avail)
      else if fp.data.length < off + 2 then
        ((read_ifd host tiff fp off).1, (read_ifd host tiff fp off).2, avail - 32)
      else if avail - 32 < 12 * n_entries_at host tiff fp.data off then
        (Except.error Err.no_memory_entries, { data := fp.data, pos := off + 2 }, avail - 32)
      else
        ((read_ifd host tiff fp off).1, (read_ifd host tiff fp off).2,
          avail - 32 - 12 * n_entries_at host tiff fp.data off) := by
  by_cases h32 : avail < 32
  · rw [if_pos h32]
    unfold read_ifd_mem
    rw [calloc_none 1 sizeof_ifd_t avail (by simpa [sizeof_ifd_t] using h32)]
  · rw [if_neg h32]
    unfold read_ifd_mem
    rw [calloc_some 1 sizeof_ifd_t avail (by simp only [sizeof_ifd_t]; omega)]
    have hs : 1 * sizeof_ifd_t = 32 := rfl
    rw [hs]
    by_cases h2 : fp.data.length < off + 2
    · rw [if_pos h2]
      unfold read_ifd
      simp only [fseek, fread, Nat.one_mul, show (0 : Int) = -1 ↔ False by decide, if_false,
        Nat.div_one, length_take_drop]
      have hm : ¬ min 2 (fp.data.length - off) = 2 := by omega
      simp only [hm, ne_eq, not_false_eq_true, if_true]
    · rw [if_neg h2]
      have hm : min 2 (fp.data.length - off) = 2 := by omega
      have hc : mem16 host ((fp.data.drop off).take 2) 0 = mem16 host fp.data off := by
        rw [mem16_take_drop _ _ _ _ _ (by omega)]; rfl
      have hn : uint32 (NATIVE2 host tiff (int16 (mem16 host fp.data off)))
        = n_entries_at host tiff fp.data off := rfl
      by_cases h12 : avail - 32 < 12 * n_entries_at host tiff fp.data off
      · rw [if_pos h12]
        simp only [fseek, fread, Nat.one_mul, show (0 : Int) = -1 ↔ False by decide, if_false,
          Nat.div_one, length_take_drop, hm, hc, hn, ne_eq, not_true_eq_false]
        rw [calloc_none _ sizeof_dir_ent_t _ (by simp only [sizeof_dir_ent_t]; omega)]
      · rw [if_neg h12]
        unfold read_ifd
        simp only [fseek, fread, Nat.one_mul, show (0 : Int) = -1 ↔ False by decide, if_false,
          Nat.div_one, length_take_drop, hm, hc, hn, ne_eq, not_true_eq_false]
        rw [calloc_some _ sizeof_dir_ent_t _ (by simp only [sizeof_dir_ent_t]; omega)]
        have hsz : n_entries_at host tiff fp.data off * sizeof_dir_ent_t
            = 12 * n_entries_at host tiff fp.data off := by
          simp only [sizeof_dir_ent_t]; omega
        rw [hsz]
        simp only
        split_ifs <;> rfl

/-- The result of `read_ifd_mem` is an allocation failure or the result of
`read_ifd`, at the cost of at least `sizeof (ifd_t)` bytes. -/
theorem read_ifd_mem_refines (host : Host) (tiff : tiff_t) (avail : Nat) (fp : FILE) (off : Nat) :
    (∃ e fp1 a, read_ifd_mem host tiff avail fp off = (Except.error e, fp1, a)
        ∧ out_of_memory e = true)
    ∨ (∃ a, read_ifd_mem host tiff avail fp off
          = ((read_ifd host tiff fp off).1, (read_ifd host tiff fp off).2, a)
        ∧ a + 32 ≤ avail) := by
  rw [read_ifd_mem_eq]
  split_ifs with h1 h2 h3
  · exact Or.inl ⟨_, _, _, rfl, rfl⟩
  · exact Or.inr ⟨_, rfl, by omega⟩
  · exact Or.inl ⟨_, _, _, rfl, rfl⟩
  · exact Or.inr ⟨_, rfl, by omega⟩

/-- The loop on a bounded heap ends in an allocation failure, or does what the
loop with memory to spare does. -/
theorem read_tiff_loop_mem_refines (host : Host) (tiff : tiff_t) :
    ∀ (fuel avail : Nat) (fp : FILE) (ifd : ifd_t),
      (∃ e fp1 a, read_tiff_loop_mem host tiff fuel avail fp ifd = some (Except.error e, fp1, a)
          ∧ out_of_memory e = true)
      ∨ (read_tiff_loop_mem host tiff fuel avail fp ifd).map forget_heap
          = read_tiff_loop host tiff fuel fp ifd := by
  intro fuel
  induction fuel with
  | zero => intro avail fp ifd; exact Or.inr rfl
  | succ fuel ih =>
    intro avail fp ifd
    unfold read_tiff_loop_mem read_tiff_loop
    by_cases hz : ifd.next_ifd ≠ 0
    · rw [if_pos hz, if_pos hz]
      rcases read_ifd_mem_refines host tiff avail fp (NATIVE4 host tiff ifd.next_ifd) with
        ⟨e, fp1, a, he, hoom⟩ | ⟨a, he, _⟩
      · rw [he]
        exact Or.inl ⟨e, fp1, a, rfl, hoom⟩
      · rw [he]
        rcases hi : read_ifd host tiff fp (NATIVE4 host tiff ifd.next_ifd) with ⟨r, fp1⟩
        cases r with
        | error e => exact Or.inr rfl
        | ok nxt =>
          simp only
          rcases ih a fp1 nxt with ⟨e, fp2, a2, hl, hoom⟩ | hl
          · rw [hl]
            exact Or.inl ⟨e, fp2, a2, rfl, hoom⟩
          · rw [← hl]
            rcases read_tiff_loop_mem host tiff fuel a fp1 nxt with _ | ⟨r2, fp2, a2⟩
            · exact Or.inr rfl
            · cases r2 with
              | error e => exact Or.inr rfl
              | ok rest => exact Or.inr rfl
    · rw [if_neg hz, if_neg hz]
      exact Or.inr rfl

/-- The load on a bounded heap ends in an allocation failure, or does what the
load with memory to spare does. -/
theorem read_tiff_mem_refines (host : Host) (avail fuel : Nat) (fp : FILE) :
    (∃ e fp1 a, read_tiff_mem host avail fuel fp = some (Except.error e, fp1, a)
        ∧ out_of_memory e = true)
    ∨ (read_tiff_mem host avail fuel fp).map forget_heap = read_tiff host fuel fp := by
  unfold read_tiff_mem
  unfold calloc
  split_ifs with h40
  · simp only
    unfold read_tiff
    simp only
    split_ifs with h8 hm
    · exact Or.inr rfl
    · exact Or.inr rfl
    · generalize hT : ({ hdr := { byte_order := mem16 host (fread 1 8 fp).1 0,
                                   universe_ := mem16 host (fread 1 8 fp).1 2,
                                   first_ifd := mem32 host (fread 1 8 fp).1 4 },
                         fname := "", ifds := [] } : tiff_t) = tiff
      rcases read_ifd_mem_refines host tiff (avail - 1 * sizeof_tiff_t) (fread 1 8 fp).2.2
          (NATIVE4 host tiff (mem32 host (fread 1 8 fp).1 4)) with ⟨e, fp1, a, he, hoom⟩ | ⟨a, he, _⟩
      · rw [he]
        exact Or.inl ⟨e, fp1, a, rfl, hoom⟩
      · rw [he]
        rcases hi : read_ifd host tiff (fread 1 8 fp).2.2 (NATIVE4 host tiff (mem32 host (fread 1 8 fp).1 4))
          with ⟨r, fp1⟩
        cases r with
        | error e => exact Or.inr rfl
        | ok ifd =>
          simp only
          rcases read_tiff_loop_mem_refines host tiff fuel a fp1 ifd with
            ⟨e, fp2, a2, hl, hoom⟩ | hl
          · rw [hl]
            exact Or.inl ⟨e, fp2, a2, rfl, hoom⟩
          · rw [← hl]
            rcases read_tiff_loop_mem host tiff fuel a fp1 ifd with _ | ⟨r2, fp2, a2⟩
            · exact Or.inr rfl
            · cases r2 with
              | error e => exact Or.inr rfl
              | ok rest => exact Or.inr rfl
  · exact Or.inl ⟨_, _, _, rfl, rfl⟩

theorem read_ifd_mem_ok_cost (host : Host) (tiff : tiff_t) (avail a : Nat) (fp fp1 : FILE)
    (off : Nat) (ifd : ifd_t)
    (h : read_ifd_mem host tiff avail fp off = (Except.ok ifd, fp1, a)) : a + 32 ≤ avail := by
  rcases read_ifd_mem_refines host tiff avail fp off with ⟨e, fp2, a2, he, _⟩ | ⟨a2, he, hc⟩
  · rw [he] at h; simp at h
  · rw [he] at h
    simp only [Prod.mk.injEq] at h
    omega

/-- On a heap of `avail` bytes the loop ends within `avail / 32 + 1` turns. -/
theorem read_tiff_loop_mem_terminates (host : Host) (tiff : tiff_t) :
    ∀ (fuel avail : Nat) (fp : FILE) (ifd : ifd_t), avail < 32 * fuel →
      ∃ r, read_tiff_loop_mem host tiff fuel avail fp ifd = some r := by
  intro fuel
  induction fuel with
  | zero => intro avail fp ifd h; omega
  | succ fuel ih =>
    intro avail fp ifd h
    unfold read_tiff_loop_mem
    split_ifs with hz
    · rcases hi : read_ifd_mem host tiff avail fp (NATIVE4 host tiff ifd.next_ifd)
        with ⟨r, fp1, a⟩
      cases r with
      | error e => exact ⟨_, rfl⟩
      | ok nxt =>
        have hc := read_ifd_mem_ok_cost host tiff avail a fp fp1 _ nxt hi
        obtain ⟨r2, hr⟩ := ih a fp1 nxt (by omega)
        simp only
        rw [hr]
        obtain ⟨res, fp3, a3⟩ := r2
        cases res with
        | error e => exact ⟨_, rfl⟩
        | ok rest => exact ⟨_, rfl⟩
    · exact ⟨_, rfl⟩

/-- On a heap of `avail` bytes every load ends, given fuel `avail / 32 + 1`. -/
theorem read_tiff_mem_terminates (host : Host) (avail : Nat) (fp : FILE) :
    ∃ r, read_tiff_mem host avail (avail / 32 + 1) fp = some r := by
  unfold read_tiff_mem
  rcases hc : calloc 1 sizeof_tiff_t avail with _ | a0
  · exact ⟨_, rfl⟩
  · have ha0 : a0 ≤ avail := by
      unfold calloc at hc
      split_ifs at hc
      simp only [Option.some.injEq] at hc
      omega
    simp only
    split_ifs with h8 hm
    · exact ⟨_, rfl⟩
    · exact ⟨_, rfl⟩
    · generalize hT : ({ hdr := { byte_order := mem16 host (fread 1 8 fp).1 0,
                                   universe_ := mem16 host (fread 1 8 fp).1 2,
                                   first_ifd := mem32 host (fread 1 8 fp).1 4 },
                         fname := "", ifds := [] } : tiff_t) = tiff
      rcases hi : read_ifd_mem host tiff a0 (fread 1 8 fp).2.2
          (NATIVE4 host tiff (mem32 host (fread 1 8 fp).1 4)) with ⟨r, fp1, a⟩
      cases r with
      | error e => exact ⟨_, rfl⟩
      | ok ifd =>
        have hcost := read_ifd_mem_ok_cost host tiff a0 a _ fp1 _ ifd hi
        obtain ⟨r2, hr⟩ := read_tiff_loop_mem_terminates host tiff (avail / 32 + 1) a fp1 ifd
          (by omega)
        simp only
        rw [hr]
        obtain ⟨res, fp3, a3⟩ := r2
        cases res with
        | error e => exact ⟨_, rfl⟩
        | ok rest => exact ⟨_, rfl⟩

/-- On a bounded heap a load ends whenever the load with memory to spare does. -/
theorem read_tiff_mem_of_read_tiff (host : Host) (avail fuel : Nat) (fp : FILE)
    (r : Except Err tiff_t × FILE) (h : read_tiff host fuel fp = some r) :
    ∃ r2, read_tiff_mem host avail fuel fp = some r2 := by
  rcases read_tiff_mem_refines host avail fuel fp with ⟨e, fp1, a, he, _⟩ | hm
  · exact ⟨_, he⟩
  · rw [h] at hm
    rcases hr : read_tiff_mem host avail fuel fp with _ | r2
    · rw [hr] at hm; simp at hm
    · exact ⟨r2, rfl⟩

/-- On a bounded heap the load of `sample_cyclic` ends in an allocation failure only. -/
theorem sample_cyclic_mem (host : Host) (avail fuel : Nat)
    (r : Except Err tiff_t × FILE × Nat)
    (h : read_tiff_mem host avail fuel (fopen sample_cyclic) = some r) :
    ∃ e, r.1 = Except.error e ∧ out_of_memory e = true := by
  rcases read_tiff_mem_refines host avail fuel (fopen sample_cyclic) with
    ⟨e, fp1, a, he, hoom⟩ | hm
  · rw [he] at h
    simp only [Option.some.injEq] at h
    rw [← h]
    exact ⟨e, rfl, hoom⟩
  · rw [h, sample_cyclic_diverges] at hm
    simp at hm

/-- C15 as stated fails: `sample_cyclic` passes the magic check and its only
IFD, at offset 8, names offset 8 as the next IFD, yet with 100 bytes of heap
the load fails at the first turn of the loop with "Not enough memory to
store IFD" (40 bytes went to the `tiff_t`, 32 to the first IFD, 28 are
left); and for no file does the load go on for every fuel. -/
theorem cycle_ends_out_of_memory :
    (field16 (declares_big sample_cyclic 0) sample_cyclic 2 = 42
      ∧ field32 (declares_big sample_cyclic 0) sample_cyclic 4 = 8
      ∧ field32 (declares_big sample_cyclic 0) sample_cyclic (8 + 2 + 12 * 0) = 8)
    ∧ read_tiff_mem Host.little 100 1 (fopen sample_cyclic)
        = some (Except.error Err.no_memory_ifd, { data := sample_cyclic, pos := 14 }, 28)
    ∧ ¬ ∃ data : List Byte, ∀ fuel, read_tiff_mem Host.little 100 fuel (fopen data) = none := by
  refine ⟨⟨rfl, rfl, rfl⟩, rfl, ?_⟩
  rintro ⟨data, h⟩
  obtain ⟨r, hr⟩ := read_tiff_mem_terminates Host.little 100 (fopen data)
  rw [h] at hr
  simp at hr

/-- C15, amended.  `read_tiff` has no cycle guard.  The file `sample_cyclic`
passes the magic check and its only IFD names its own offset as the next
one.  With memory to spare the load of it never returns a `tiff_t` nor
fails, whatever the fuel.  On a heap of `avail` bytes its load never returns
a `tiff_t` and fails only by an allocation failure, which it does within
`avail / 32 + 1` turns of the loop.  Conversely, when the chain of next
offsets that starts at the header's `first_ifd` reaches 0 or an unreadable
IFD within `k` IFDs, the load ends given fuel `k` or more, with memory to
spare and on every heap; and on a heap of `avail` bytes every load ends. -/
theorem no_cycle_guard_bounded_heap (host : Host) (avail k fuel : Nat) (fp : FILE) :
    (field16 (declares_big sample_cyclic 0) sample_cyclic 2 = 42
      ∧ field32 (declares_big sample_cyclic 0) sample_cyclic 4 = 8
      ∧ field32 (declares_big sample_cyclic 0) sample_cyclic (8 + 2 + 12 * 0) = 8)
    ∧ read_tiff host fuel (fopen sample_cyclic) = none
    ∧ (∀ r, read_tiff_mem host avail fuel (fopen sample_cyclic) = some r →
        ∃ e, r.1 = Except.error e ∧ out_of_memory e = true)
    ∧ (∃ e fp1 a, read_tiff_mem host avail (avail / 32 + 1) (fopen sample_cyclic)
          = some (Except.error e, fp1, a) ∧ out_of_memory e = true)
    ∧ (chain_ends host (header_at host fp.data fp.pos) fp.data k
          (NATIVE4 host (header_at host fp.data fp.pos)
            (header_at host fp.data fp.pos).hdr.first_ifd) = true →
        k ≤ fuel →
        (∃ r, read_tiff host fuel fp = some r)
        ∧ ∃ r, read_tiff_mem host avail fuel fp = some r)
    ∧ ∃ r, read_tiff_mem host avail (avail / 32 + 1) fp = some r := by
  refine ⟨⟨rfl, rfl, rfl⟩, sample_cyclic_diverges host fuel,
    sample_cyclic_mem host avail fuel, ?_, ?_, read_tiff_mem_terminates host avail fp⟩
  · obtain ⟨r, hr⟩ := read_tiff_mem_terminates host avail (fopen sample_cyclic)
    obtain ⟨e, he, hoom⟩ := sample_cyclic_mem host avail _ r hr
    obtain ⟨res, fp1, a⟩ := r
    simp only at he
    subst he
    exact ⟨e, fp1, a, hr, hoom⟩
  · intro hend hfuel
    obtain ⟨r, hr⟩ := read_tiff_terminates host fp k fuel hend hfuel
    exact ⟨⟨r, hr⟩, read_tiff_mem_of_read_tiff host avail fuel fp r hr⟩

/-- C15 amended, an instance: the chain of `sample_le` ends within one IFD;
its load ends with fuel 1, with memory to spare and on a heap of 100 bytes. -/
theorem no_cycle_guard_bounded_heap_witness :
    (∃ r, read_tiff Host.little 1 (fopen sample_le) = some r)
    ∧ ∃ r, read_tiff_mem Host.little 100 1 (fopen sample_le) = some r :=
  (no_cycle_guard_bounded_heap Host.little 100 1 1 (fopen sample_le)).2.2.2.2.1 rfl (by decide)

/-! ### `read_ifd` on an IFD with a count of 32768 -/

theorem mem32_append_right (host : Host) (A B : List Byte) (i : Nat) :
    mem32 host (A ++ B) (A.length + i) = mem32 host B i := by
  unfold mem32
  rw [List.getD_append_right _ _ _ _ (by omega : A.length ≤ A.length + i),
    List.getD_append_right _ _ _ _ (by omega : A.length ≤ A.length + i + 1),
    List.getD_append_right _ _ _ _ (by omega : A.length ≤ A.length + i + 2),
    List.getD_append_right _ _ _ _ (by omega : A.length ≤ A.length + i + 3)]
  have e0 : A.length + i - A.length = i := by omega
  have e1 : A.length + i + 1 - A.length = i + 1 := by omega
  have e2 : A.length + i + 2 - A.length = i + 2 := by omega
  have e3 : A.length + i + 3 - A.length = i + 3 := by omega
  rw [e0, e1, e2, e3]

theorem error_ne_ok {ε α : Type} (e : ε) (a : α) : (Except.error e : Except ε α) ≠ Except.ok a :=
  fun h => Except.noConfusion h

/-- When `read_ifd` fails, `read_ifd_mem` fails on every heap. -/
theorem read_ifd_mem_error (host : Host) (tiff : tiff_t) (fp : FILE) (off : Nat) (e : Err)
    (hr : (read_ifd host tiff fp off).1 = Except.error e) (avail : Nat) :
    ¬ ∃ ifd fp1 a, read_ifd_mem host tiff avail fp off = (Except.ok ifd, fp1, a) := by
  rintro ⟨ifd, fp1, a, h⟩
  have h1 : (read_ifd_mem host tiff avail fp off).1 = Except.ok ifd := by rw [h]
  rw [read_ifd_mem_eq] at h1
  split_ifs at h1
  all_goals (rw [hr] at h1; exact error_ne_ok _ _ h1)

/-- C8 fails on the little-endian file with one IFD of 32768 zero entries, on
a little-endian machine: the IFD at offset 8, which the load reaches, has the
normalized entry count n = 32768 and the file has exactly 8 + 2 + 12 * n + 4
bytes, yet `read_ifd` at offset 8 fails, asking for 4294934528 entries; on a
bounded heap it fails whatever the size of the heap. -/
theorem read_ifd_fails_on_present_ifd :
    NATIVE4 Host.little (header_at Host.little (put_tiff false [content_32768]) 0)
        (header_at Host.little (put_tiff false [content_32768]) 0).hdr.first_ifd = 8
    ∧ field16 false (put_tiff false [content_32768]) 8 = 32768
    ∧ (put_tiff false [content_32768]).length = 8 + 2 + 12 * 32768 + 4
    ∧ (read_ifd Host.little (header_at Host.little (put_tiff false [content_32768]) 0)
        (fopen (put_tiff false [content_32768])) 8).1
        = Except.error (Err.ifd_entries 4294934528)
    ∧ (¬ ∃ ifd, (read_ifd Host.little (header_at Host.little (put_tiff false [content_32768]) 0)
        (fopen (put_tiff false [content_32768])) 8).1 = Except.ok ifd)
    ∧ ∀ avail, ¬ ∃ ifd fp1 a,
        read_ifd_mem Host.little (header_at Host.little (put_tiff false [content_32768]) 0) avail
          (fopen (put_tiff false [content_32768])) 8 = (Except.ok ifd, fp1, a) := by
  have hd : put_tiff false [content_32768]
      = ([0x49, 0x49, 0x2A, 0, 8, 0, 0, 0, 0, 0x80] : List Byte) ++ List.replicate 393220 0 := by
    rw [content_32768, put_tiff_zero_tail]
    rfl
  generalize hA : ([0x49, 0x49, 0x2A, 0, 8, 0, 0, 0, 0, 0x80] : List Byte) = A at hd
  generalize put_tiff false [content_32768] = data at hd
  have hAl : A.length = 10 := by rw [← hA]; rfl
  have hlen : data.length = 393230 := by
    rw [hd, List.length_append, List.length_replicate, hAl]
  have hbig : declares_big data 0 = false := by
    rw [hd, declares_big_append_left _ _ (by omega), ← hA]; rfl
  have hfirst : mem32 Host.little data (0 + 4) = 8 := by
    rw [hd, mem32_append_left _ _ _ _ (by omega), ← hA]; rfl
  have hcount : field16 false data 8 = 32768 := by
    rw [field16_eq_mem16, hd, mem16_append_left _ _ _ _ (by omega), ← hA]; rfl
  have hO : ORDER_BE (header_at Host.little data 0) = false := by
    rw [ORDER_BE_header_at]; exact hbig
  have hn : n_entries_at Host.little (header_at Host.little data 0) data 8 = 4294934528 := by
    rw [n_entries_at_eq, hO, hcount, if_pos ⟨rfl, by omega⟩]
  have hN4 : NATIVE4 Host.little (header_at Host.little data 0)
      (header_at Host.little data 0).hdr.first_ifd = 8 := by
    have := NATIVE4_mem32 Host.little (header_at Host.little data 0) data (0 + 4)
    rw [hO] at this
    exact this.trans hfirst
  have hr : (read_ifd Host.little (header_at Host.little data 0) (fopen data) 8).1
      = Except.error (Err.ifd_entries 4294934528) := by
    rw [read_ifd_fst]
    simp only [fopen, hn, hlen]
    rw [if_neg (by omega), if_pos (by omega)]
  refine ⟨hN4, hcount, by rw [hlen], hr, ?_, ?_⟩
  · rintro ⟨ifd, h⟩
    rw [hr] at h
    simp at h
  · exact fun avail => read_ifd_mem_error _ _ _ _ _ hr avail

/-! ### Where `read_ifd` takes `next_ifd` from -/

/-- What `read_ifd` returns when it succeeds at offset `o`: the number of
entries is `n_entries`, `file_offset` is `o`, and `next_ifd` is the raw
32-bit value the machine reads behind the `n_entries` entries. -/
theorem read_ifd_result_fields (host : Host) (tiff : tiff_t) (fp fp1 : FILE) (o : Nat)
    (ifd : ifd_t) (h : read_ifd host tiff fp o = (Except.ok ifd, fp1)) :
    ifd.entries.length = n_entries_at host tiff fp.data o
    ∧ ifd.file_offset = o
    ∧ ifd.next_ifd = mem32 host fp.data (o + 2 + 12 * n_entries_at host tiff fp.data o)
    ∧ fp1 = { data := fp.data, pos := o + 2 + 12 * n_entries_at host tiff fp.data o + 4 } := by
  have h1 : (read_ifd host tiff fp o).1 = Except.ok ifd := by rw [h]
  obtain ⟨hifd, hlen⟩ := read_ifd_ok_inv host tiff fp o ifd h1
  have hok := read_ifd_ok host tiff fp o hlen
  rw [hok] at h
  simp only [Prod.mk.injEq, Except.ok.injEq] at h
  refine ⟨?_, ?_, ?_, h.2.symm⟩
  · rw [hifd, ifd_at_entries_length]
  · rw [hifd]; rfl
  · rw [hifd]; rfl

/-- C11 fails on the little-endian file `sample_long 4294934528` (51.5 GB) on
a little-endian machine with the memory for it: the IFD at offset 8 has the
count bytes `00 80`, normalized entry count n = 32768; `read_ifd` succeeds
there with `file_offset` 8 (also on a heap of just the bytes it allocates),
but having read 4294934528 entries it takes `next_ifd` = 7 from the end of
the file, while the 4 bytes at file position 8 + 2 + 12 * n hold 0. -/
theorem next_ifd_behind_sign_extended_count :
    field16 false (sample_long 4294934528) 8 = 32768
    ∧ mem32 Host.little (sample_long 4294934528) (8 + 2 + 12 * 32768) = 0
    ∧ ∃ ifd fp1,
        read_ifd Host.little (header_at Host.little (sample_long 4294934528) 0)
          (fopen (sample_long 4294934528)) 8 = (Except.ok ifd, fp1)
        ∧ read_ifd_mem Host.little (header_at Host.little (sample_long 4294934528) 0)
            (32 + 12 * 4294934528) (fopen (sample_long 4294934528)) 8 = (Except.ok ifd, fp1, 0)
        ∧ ifd.file_offset = 8
        ∧ ifd.entries.length = 4294934528
        ∧ ifd.next_ifd = 7 := by
  have hd : sample_long 4294934528
      = (([0x49, 0x49, 0x2A, 0, 8, 0, 0, 0, 0x00, 0x80] : List Byte)
          ++ List.replicate (12 * 4294934528) 0) ++ [7, 0, 0, 0] := rfl
  generalize hA : ([0x49, 0x49, 0x2A, 0, 8, 0, 0, 0, 0x00, 0x80] : List Byte) = A at hd
  generalize sample_long 4294934528 = data at hd
  have hAl : A.length = 10 := by rw [← hA]; rfl
  have hmid : (A ++ List.replicate (12 * 4294934528) (0 : Byte)).length = 10 + 12 * 4294934528 := by
    rw [List.length_append, List.length_replicate, hAl]
  have hlen : data.length = 10 + 12 * 4294934528 + 4 := by
    rw [hd, List.length_append, hmid]; rfl
  have hbig : declares_big data 0 = false := by
    rw [hd, declares_big_append_left _ _ (by omega), declares_big_append_left _ _ (by omega),
      ← hA]
    rfl
  have hcount : field16 false data 8 = 32768 := by
    rw [field16_eq_mem16, hd, mem16_append_left _ _ _ _ (by omega),
      mem16_append_left _ _ _ _ (by omega), ← hA]
    rfl
  have hzero : mem32 Host.little data (8 + 2 + 12 * 32768) = 0 := by
    rw [hd, mem32_append_left _ _ _ _ (by omega), mem32_zero_tail _ _ _ _ (by omega)]
  have hO : ORDER_BE (header_at Host.little data 0) = false := by
    rw [ORDER_BE_header_at]; exact hbig
  have hn : n_entries_at Host.little (header_at Host.little data 0) data 8 = 4294934528 := by
    rw [n_entries_at_eq, hO, hcount, if_pos ⟨rfl, by omega⟩]
  have hnext : mem32 Host.little data (8 + 2 + 12 * 4294934528) = 7 := by
    have e : 8 + 2 + 12 * 4294934528
        = (A ++ List.replicate (12 * 4294934528) (0 : Byte)).length + 0 := by
      rw [hmid]
    rw [hd, e, mem32_append_right]
    rfl
  have hok := read_ifd_ok Host.little (header_at Host.little data 0) (fopen data) 8
    (by simp only [fopen, hn, hlen]; omega)
  have hmem : read_ifd_mem Host.little (header_at Host.little data 0) (32 + 12 * 4294934528)
      (fopen data) 8
      = ((read_ifd Host.little (header_at Host.little data 0) (fopen data) 8).1,
         (read_ifd Host.little (header_at Host.little data 0) (fopen data) 8).2, 0) := by
    rw [read_ifd_mem_eq, if_neg (by omega), if_neg (by simp only [fopen, hlen]; omega),
      if_neg (by simp only [fopen, hn]; omega)]
    simp only [fopen, hn]
  rw [hok] at hmem
  refine ⟨hcount, hzero, _, _, hok, hmem, rfl, ?_, ?_⟩
  · simp only [fopen]
    rw [ifd_at_entries_length, hn]
  · simp only [fopen, ifd_at, hn]
    exact hnext

/-! ### `add_tiff` and the order of the scans -/

theorem main_scan_outputs (host : Host) (ts : List tiff_t) (outs : List (List Line))
    (h : List.Forall₂ (fun t o => locate_security_bits host t = some o) ts outs) :
    main_scan host ts = some outs.flatten := by
  induction h with
  | nil => rfl
  | @cons t o ts outs hto _ ih =>
    simp only [main_scan, hto, ih, List.flatten_cons]

/-- C18. `add_tiff` puts the new TIFF in front of the list and leaves the
rest as it was: the new list is `t` followed by the old one (one element
longer, `t` itself unchanged at the head, the old list as the tail, every
old element at its old position plus one).  After adding `t1 .. tn` to the
empty list the list is `tn .. t1`, and the scan loop of `main` visits it in
this order: when `t1 .. tn` are what the files load as and `o1 .. on` what
`locate_security_bits` prints for them, the loop prints `on`, then
`o(n-1)`, down to `o1`, and so does `main`. -/
theorem add_tiff_prepends (host : Host) (fuel : Nat) (head : List tiff_t) (t : tiff_t)
    (files : List (String × List Byte)) (ts : List tiff_t) (outs : List (List Line))
    (hload : List.Forall₂
      (fun f t => ∃ fp1, new_tiff host fuel (fopen f.2) f.1 = some (Except.ok t, fp1)) files ts)
    (hscan : List.Forall₂ (fun t o => locate_security_bits host t = some o) ts outs) :
    add_tiff head t = t :: head
    ∧ (add_tiff head t).length = head.length + 1
    ∧ (add_tiff head t).head? = some t
    ∧ (add_tiff head t).tail = head
    ∧ (∀ i, (add_tiff head t).get? (i + 1) = head.get? i)
    ∧ List.foldl add_tiff [] ts = ts.reverse
    ∧ main_scan host [] = some []
    ∧ main_scan host (List.foldl add_tiff [] ts) = some outs.reverse.flatten
    ∧ main host fuel (files.map (fun f => (f.1, some f.2))) = some (0, outs.reverse.flatten) := by
  have hfold : List.foldl add_tiff [] ts = ts.reverse := by
    rw [foldl_add_tiff, List.append_nil]
  have hrev := main_scan_outputs host ts.reverse outs.reverse (List.rel_reverse hscan)
  refine ⟨rfl, rfl, rfl, rfl, fun i => rfl, hfold, rfl, ?_, ?_⟩
  · rw [hfold, hrev]
  · have hl := main_load_all host fuel files ts [] hload
    rw [List.append_nil] at hl
    unfold main
    rw [hl]
    simp only [hrev]

/-- C18, an instance: `sample_le` given twice, under the names `a` and `b`, on
a little-endian machine: the line for `b`, the file given last, comes first. -/
theorem add_tiff_prepends_witness :
    main_scan Host.little (List.foldl add_tiff []
        [{ sample_tiff 0x4949 with fname := "a" }, { sample_tiff 0x4949 with fname := "b" }])
      = some ([[Line.tag "a" 3], [Line.tag "b" 3]] : List (List Line)).reverse.flatten
    ∧ main Host.little 1 ([("a", sample_le), ("b", sample_le)].map (fun f => (f.1, some f.2)))
      = some (0, ([[Line.tag "a" 3], [Line.tag "b" 3]] : List (List Line)).reverse.flatten) :=
  (add_tiff_prepends Host.little 1 [] (sample_tiff 0x4949) [("a", sample_le), ("b", sample_le)]
    [{ sample_tiff 0x4949 with fname := "a" }, { sample_tiff 0x4949 with fname := "b" }]
    [[Line.tag "a" 3], [Line.tag "b" 3]]
    (List.Forall₂.cons ⟨{ data := sample_le, pos := 26 }, rfl⟩
      (List.Forall₂.cons ⟨{ data := sample_le, pos := 26 }, rfl⟩ List.Forall₂.nil))
    (List.Forall₂.cons rfl (List.Forall₂.cons rfl List.Forall₂.nil))).2.2.2.2.2.2.2

end Tepsniff
